import Mathlib

/-!
# wspipe: the outbound message pump

A shallow embedding of `ws_callback` from `wspipe.cpp` together with the
properties of its write pump.

Modelling conventions.

* `cbdata` is the C++ struct of the same name.  The pointer `cur` is either
  `nullptr` (`none`) or points into `buf`; it is represented by its offset
  from `&buf[0]`.
* Everything the handler does to its environment is recorded in `World`:
  the unread bytes of standard input, the text the handler writes to standard
  error, the results of its `std::getline` calls, its `libwebsocket_write`
  calls and the number of its `libwebsocket_callback_on_writable` calls.
* `libwebsocket_write` belongs to the transport library.  It is represented
  by its return value only: the handler is given a function from the
  requested length to the `int` the call returns.
* `LWS_SEND_BUFFER_PRE_PADDING`, `LWS_SEND_BUFFER_POST_PADDING`, `__FILE__`
  and `__LINE__` are fixed when the program is built; they are the fields of
  `Build`.
* Standard input is a finite byte sequence that ends in a clean end of file.
  Failures of the stream itself (`badbit`) and of memory allocation are not
  modelled.
-/

namespace Wspipe

/-! ## Data model -/

/-- Constants fixed at build time: the two padding sizes of `libwebsockets.h`
and the expansions of `__FILE__` and `__LINE__` inside the two
`THROW_RUNTIME` uses of `ws_callback`. -/
structure Build where
  LWS_SEND_BUFFER_PRE_PADDING : Nat
  LWS_SEND_BUFFER_POST_PADDING : Nat
  FILE : String
  LINE_connect : Nat
  LINE_write : Nat

/-- The struct `cbdata`.  `port` is a `uint16_t`, `cur` an offset into `buf`
(`none` is `nullptr`). -/
structure cbdata where
  host : String
  path : String
  port : Nat
  was_closed : Bool
  buf : List UInt8
  cur : Option Nat
  deriving DecidableEq, Repr

/-- The callback reasons `ws_callback` distinguishes; every other value of
`libwebsocket_callback_reasons` is `OTHER` with its numeric code. -/
inductive Reason where
  | LWS_CALLBACK_CLIENT_ESTABLISHED
  | LWS_CALLBACK_CLIENT_CONNECTION_ERROR
  | LWS_CALLBACK_CLOSED
  | LWS_CALLBACK_CLIENT_WRITEABLE
  | OTHER (code : Nat)
  deriving DecidableEq, Repr

/-- One call `libwebsocket_write(ws, d.cur, len, LWS_WRITE_TEXT)`: the offset
of `d.cur` in the buffer, `len`, the bytes of the buffer in
`[d.cur, d.cur + len)` and the value the call returned. -/
structure WriteCall where
  off : Nat
  len : Nat
  data : List UInt8
  sent : Int
  deriving DecidableEq, Repr

/-- The session data together with the environment the handler acts on. -/
structure World where
  d : cbdata
  cin : List UInt8
  cerr : String
  reads : List (Option (List UInt8))
  writes : List WriteCall
  on_writable : Nat
  deriving DecidableEq, Repr

/-- How a handler invocation ends: it returns an `int`, or a
`std::runtime_error` with the given `what()` leaves it. -/
inductive Outcome where
  | returned (ret : Int) (w : World)
  | thrown (what : String) (w : World)
  deriving DecidableEq, Repr

/-! ## Library operations -/

/-- The message of `THROW_RUNTIME(msg)`:
`__FILE__ << ":" << __LINE__ << ": " << msg`. -/
def THROW_RUNTIME (file : String) (line : Nat) (msg : String) : String :=
  file ++ ":" ++ toString line ++ ": " ++ msg

/-- The text `d.host << ':' << d.port << d.path` that every diagnostic of the
program ends with. -/
def destination (d : cbdata) : String :=
  d.host ++ ":" ++ toString d.port ++ d.path

/-- Conversion of a signed integer to `size_t`: a negative value wraps
modulo `2^64`, a non-negative one is unchanged. -/
def to_size_t (x : Int) : Nat :=
  if x < 0 then (x % (2 : Int) ^ 64).toNat else x.toNat

/-- The call `std::getline(std::cin, line)` on the unread input: it fails at
end of file; otherwise `line` is the input up to the first newline or the end
of file, and the newline, when there is one, is consumed and dropped. -/
def getline (cin : List UInt8) : Option (List UInt8 × List UInt8) :=
  match cin with
  | [] => none
  | _ :: _ => some (cin.takeWhile (fun c => c != 10), (cin.dropWhile (fun c => c != 10)).drop 1)

/-- The call `v.resize(n)` on a `std::vector<uint8_t>`: the first `n` elements
are kept and new elements are zero. -/
def resize (v : List UInt8) (n : Nat) : List UInt8 :=
  v.take n ++ List.replicate (n - v.length) 0

/-- The call `std::copy(src.begin(), src.end(), &dst[off])`. -/
def copy (src dst : List UInt8) (off : Nat) : List UInt8 :=
  dst.take off ++ src ++ dst.drop (off + src.length)

/-! ## The handler -/

/-- Lines 86-103 of `ws_callback`: write the send buffer to the websocket,
move or reset the cursor and schedule the next write callback.  `cur` is the
offset of the non-null `d.cur`. -/
def send_buffer (b : Build) (libwebsocket_write : Nat → Int) (cur : Nat) (w : World) : Outcome :=
  let len := to_size_t
    ((w.d.buf.length : Int) - (cur : Int) - (b.LWS_SEND_BUFFER_POST_PADDING : Int))
  let sent := libwebsocket_write len
  let w1 := { w with
    writes := w.writes ++
      [{ off := cur, len := len, data := (w.d.buf.drop cur).take len, sent := sent }] }
  if sent < 0 then
    .thrown (THROW_RUNTIME b.FILE b.LINE_write ("websocket write failed on " ++ destination w.d)) w1
  else
    let cur' := if to_size_t sent < len then some (cur + sent.toNat) else none
    .returned 0 { w1 with d := { w1.d with cur := cur' }, on_writable := w1.on_writable + 1 }

/-- The `LWS_CALLBACK_CLIENT_WRITEABLE` case of `ws_callback` (lines 60-105):
when no message is pending a new line is popped into the send buffer, or, at
the end of the input, `was_closed` is set and the handler returns; then the
send buffer is written. -/
def client_writeable (b : Build) (libwebsocket_write : Nat → Int) (w : World) : Outcome :=
  match w.d.cur with
  | some cur => send_buffer b libwebsocket_write cur w
  | none =>
    match getline w.cin with
    | some (line0, rest) =>
      let line := line0 ++ [10]
      let buf := resize w.d.buf
        (b.LWS_SEND_BUFFER_PRE_PADDING + line.length + b.LWS_SEND_BUFFER_POST_PADDING)
      let cur := b.LWS_SEND_BUFFER_PRE_PADDING
      send_buffer b libwebsocket_write cur
        { w with
          cin := rest
          reads := w.reads ++ [some line0]
          d := { w.d with buf := copy line buf cur, cur := some cur } }
    | none =>
      .returned 0 { w with
        reads := w.reads ++ [none]
        d := { w.d with was_closed := true } }

/-- The function `ws_callback`.  `libwebsocket_write` gives the value the
transport returns for a write of the given length, should the handler make
one. -/
def ws_callback (b : Build) (reason : Reason) (libwebsocket_write : Nat → Int) (w : World) :
    Outcome :=
  match reason with
  | .LWS_CALLBACK_CLIENT_ESTABLISHED =>
    .returned 0 { w with
      cerr := w.cerr ++ "Connected to websocket at " ++ destination w.d ++ "\n"
      on_writable := w.on_writable + 1 }
  | .LWS_CALLBACK_CLIENT_CONNECTION_ERROR =>
    .thrown (THROW_RUNTIME b.FILE b.LINE_connect
      ("Failed to connect to websocket at " ++ destination w.d)) w
  | .LWS_CALLBACK_CLOSED =>
    .returned 0 { w with d := { w.d with was_closed := true } }
  | .LWS_CALLBACK_CLIENT_WRITEABLE => client_writeable b libwebsocket_write w
  | .OTHER _ => .returned 0 w

/-! ## Sessions -/

/-- One dispatch of the transport: the reason code and the answer
`libwebsocket_write` gives during this invocation. -/
structure Event where
  reason : Reason
  write : Nat → Int

/-- A writable event whose write, if any, is answered by `f`. -/
def writable (f : Nat → Int) : Event :=
  { reason := .LWS_CALLBACK_CLIENT_WRITEABLE, write := f }

/-- The handler invoked on the events in order; `none` when an invocation
throws. -/
def run (b : Build) : List Event → World → Option World
  | [], w => some w
  | e :: es, w =>
    match ws_callback b e.reason e.write w with
    | .returned _ w1 => run b es w1
    | .thrown _ _ => none

/-- The session `main` starts with: `cbdata d{host, path, port, false, {}, nullptr}`,
all of standard input unread, and nothing done yet by the handler. -/
def start (host : String) (port : Nat) (path : String) (cin : List UInt8) : World :=
  { d := { host := host, path := path, port := port, was_closed := false, buf := [], cur := none }
    cin := cin
    cerr := ""
    reads := []
    writes := []
    on_writable := 0 }

/-! ## Observations -/

/-- The bytes of a string literal. -/
def bytes (s : String) : List UInt8 :=
  s.toList.map (fun c => UInt8.ofNat c.toNat)

/-- The byte range a write call's result says the transport accepted: the
first `sent` of the requested bytes. -/
def accepted (a : WriteCall) : List UInt8 :=
  a.data.take a.sent.toNat

/-- Everything the transport accepted, in the order of the write calls. -/
def transmitted (w : World) : List UInt8 :=
  w.writes.flatMap accepted

/-- The lines `std::getline` has returned so far. -/
def lines_read (w : World) : List (List UInt8) :=
  w.reads.filterMap id

/-- The lines, each followed by a newline, concatenated:
`L1 ++ "\n" ++ ... ++ Ln ++ "\n"`. -/
def framed (ls : List (List UInt8)) : List UInt8 :=
  ls.flatMap (fun l => l ++ [10])

/-- The bytes of the pending message not yet accepted: the buffer from the
cursor up to the post-padding. -/
def unsent (b : Build) (w : World) : List UInt8 :=
  match w.d.cur with
  | none => []
  | some c => (w.d.buf.drop c).take (w.d.buf.length - c - b.LWS_SEND_BUFFER_POST_PADDING)


/-! ## Intermediate states and outcomes -/

/-- The world an invocation leaves behind, whichever way it ends. -/
def Outcome.world : Outcome → World
  | .returned _ w => w
  | .thrown _ w => w

/-- The state after lines 64-79 of `ws_callback` have popped `line0` into the
send buffer and before the write. -/
def fetched (b : Build) (w : World) (line0 rest : List UInt8) : World :=
  { w with
    cin := rest
    reads := w.reads ++ [some line0]
    d := { w.d with
      buf := copy (line0 ++ [10]) (resize w.d.buf
        (b.LWS_SEND_BUFFER_PRE_PADDING + (line0 ++ [10]).length +
          b.LWS_SEND_BUFFER_POST_PADDING)) b.LWS_SEND_BUFFER_PRE_PADDING
      cur := some b.LWS_SEND_BUFFER_PRE_PADDING } }

/-! ## Invariants of a session -/

/-- The state of the send buffer and of the traces in a session: a pending
cursor lies inside the message most recently read, the accepted bytes followed
by the unsent ones are the lines read so far, and every write call asked for a
non-empty range that lies inside the message of a line that was read. -/
def Inv (b : Build) (w : World) : Prop :=
  (∀ c, w.d.cur = some c → ∃ line, w.reads.getLast? = some (some line) ∧
      w.d.buf.length =
        b.LWS_SEND_BUFFER_PRE_PADDING + (line.length + 1) + b.LWS_SEND_BUFFER_POST_PADDING ∧
      b.LWS_SEND_BUFFER_PRE_PADDING ≤ c ∧
      c < w.d.buf.length - b.LWS_SEND_BUFFER_POST_PADDING) ∧
  transmitted w ++ unsent b w = framed (lines_read w) ∧
  (∀ a ∈ w.writes, b.LWS_SEND_BUFFER_PRE_PADDING ≤ a.off ∧ 1 ≤ a.len ∧ a.data.length = a.len ∧
      ∃ line ∈ lines_read w, a.off + a.len = b.LWS_SEND_BUFFER_PRE_PADDING + (line.length + 1))

/-- The unread input is a sequence of complete lines, and the lines read so
far followed by them are the lines `ls` the session was started on. -/
def Feeds (ls : List (List UInt8)) (w : World) : Prop :=
  ∃ rs : List (List UInt8), w.cin = framed rs ∧ (∀ l ∈ rs, (10 : UInt8) ∉ l) ∧
    lines_read w ++ rs = ls

/-- In a session driven by writable events only, the closed flag is set only
at the end of the input with no message pending. -/
def Drained (w : World) : Prop :=
  w.d.was_closed = true → w.d.cur = none ∧ w.cin = []

/-! ## Outstanding writable requests -/

/-- The transport's side of the writable requests, as a counter of the
outstanding ones: the dispatch of a writable event takes one request off it
and every `libwebsocket_callback_on_writable` call of the handler puts one on
it.  `none` when the handler throws. -/
def dispatch (b : Build) (e : Event) (s : Nat × World) : Option (Nat × World) :=
  let n := if e.reason = .LWS_CALLBACK_CLIENT_WRITEABLE then s.1 - 1 else s.1
  match ws_callback b e.reason e.write s.2 with
  | .returned _ w => some (n + (w.on_writable - s.2.on_writable), w)
  | .thrown _ _ => none

/-- The events dispatched in order, with the counter of outstanding writable
requests. -/
def serve (b : Build) : List Event → Nat × World → Option (Nat × World)
  | [], s => some s
  | e :: es, s =>
    match dispatch b e s with
    | some s1 => serve b es s1
    | none => none

/-! ## A transport with a cap, and chunks -/

/-- A transport that accepts at most `k` bytes per write. -/
def capped (k : Nat) : Nat → Int :=
  fun len => min (k : Int) (len : Int)

/-- The first `fuel` consecutive `k`-byte chunks of `l`; the last chunk of
`l` may be shorter. -/
def chunks_upto (k : Nat) : Nat → List UInt8 → List (List UInt8)
  | 0, _ => []
  | fuel + 1, l => if l = [] then [] else l.take k :: chunks_upto k fuel (l.drop k)

/-- The consecutive `k`-byte chunks of `l`, the last possibly shorter. -/
def chunks (k : Nat) (l : List UInt8) : List (List UInt8) :=
  chunks_upto k l.length l

/-- The chunks a transport that accepts `k` bytes per write is expected to
accept for the lines `ls`: the chunks of each line's message, line by line. -/
def chunk_plan (k : Nat) (ls : List (List UInt8)) : List (List UInt8) :=
  ls.flatMap (fun l => chunks k (l ++ [10]))

/-- The chunks still to be accepted in a state whose unread input is the
lines `rs`: those of the pending message, then those of `rs`. -/
def chunks_left (k : Nat) (b : Build) (w : World) (rs : List (List UInt8)) : List (List UInt8) :=
  chunks k (unsent b w) ++ chunk_plan k rs

/-! ## Sample data -/

/-- A build with 18 bytes of pre-padding and 4 bytes of post-padding, whose
`THROW_RUNTIME` uses expand `__LINE__` to the line of the macro name. -/
def sample_build : Build :=
  { LWS_SEND_BUFFER_PRE_PADDING := 18
    LWS_SEND_BUFFER_POST_PADDING := 4
    FILE := "wspipe.cpp"
    LINE_connect := 52
    LINE_write := 90 }

/-- The session of `main` on an empty standard input. -/
def sample_idle : World :=
  start "localhost" 8080 "/chat" []

/-- The session `sample_idle` after its first writable event. -/
def sample_drained : World :=
  { sample_idle with
    reads := [none]
    d := { sample_idle.d with was_closed := true } }

/-- The session of `main` on the input `hello\n`, before any event. -/
def sample_hello : World :=
  start "localhost" 8080 "/chat" (bytes "hello\n")

/-- The write call of the first writable event of `sample_hello` when the
transport accepts three bytes. -/
def sample_call : WriteCall :=
  { off := 18, len := 6, data := bytes "hello\n", sent := 3 }

/-- The session of `main` on the input `hello\n` after one writable event
answered by a transport that accepts three bytes. -/
def sample_pending : World :=
  { d :=
      { host := "localhost", path := "/chat", port := 8080, was_closed := false
        buf := List.replicate 18 0 ++ bytes "hello\n" ++ List.replicate 4 0
        cur := some 21 }
    cin := []
    cerr := ""
    reads := [some (bytes "hello")]
    writes := [{ off := 18, len := 6, data := bytes "hello\n", sent := 3 }]
    on_writable := 1 }

/-- The session of `main` on the input `hello\nworld\n` after five writable
events whose writes are answered with 2, 0, 4 and 6 accepted bytes. -/
def sample_uneven : World :=
  { d :=
      { host := "localhost", path := "/chat", port := 8080, was_closed := true
        buf := List.replicate 18 0 ++ bytes "world\n" ++ List.replicate 4 0
        cur := none }
    cin := []
    cerr := ""
    reads := [some (bytes "hello"), some (bytes "world"), none]
    writes :=
      [{ off := 18, len := 6, data := bytes "hello\n", sent := 2 },
       { off := 20, len := 4, data := bytes "llo\n", sent := 0 },
       { off := 20, len := 4, data := bytes "llo\n", sent := 4 },
       { off := 18, len := 6, data := bytes "world\n", sent := 6 }]
    on_writable := 4 }

/-! ## Lemmas on the library operations -/

theorem to_size_t_of_nonneg (x : Int) (h : 0 ≤ x) : to_size_t x = x.toNat := by
  unfold to_size_t
  rw [if_neg (by omega)]

theorem to_size_t_diff (n c p : Nat) (h : c + p ≤ n) :
    to_size_t ((n : Int) - (c : Int) - (p : Int)) = n - c - p := by
  rw [to_size_t_of_nonneg _ (by omega)]
  omega

theorem length_resize (v : List UInt8) (n : Nat) : (resize v n).length = n := by
  unfold resize
  simp
  omega

theorem length_copy (src dst : List UInt8) (off : Nat) (h : off + src.length ≤ dst.length) :
    (copy src dst off).length = dst.length := by
  unfold copy
  simp
  omega

theorem drop_copy (src dst : List UInt8) (off : Nat) (h : off + src.length ≤ dst.length) :
    ((copy src dst off).drop off).take src.length = src := by
  unfold copy
  have h1 : (dst.take off).length = off := by simp; omega
  rw [List.append_assoc, List.drop_append_of_le_length (by omega)]
  rw [List.drop_of_length_le (by omega)]
  simp

theorem getline_eq_none (cin : List UInt8) : getline cin = none ↔ cin = [] := by
  cases cin <;> simp [getline]

theorem takeWhile_line (l rest : List UInt8) (h : (10 : UInt8) ∉ l) :
    (l ++ 10 :: rest).takeWhile (fun c => c != 10) = l := by
  induction l with
  | nil => simp [List.takeWhile]
  | cons x xs ih =>
    have hx : (x != 10) = true := by
      simp only [bne_iff_ne, ne_eq]
      exact fun e => h (by simp [e])
    have hxs : (10 : UInt8) ∉ xs := fun e => h (by simp [e])
    rw [List.cons_append, List.takeWhile_cons, if_pos hx, ih hxs]

theorem dropWhile_line (l rest : List UInt8) (h : (10 : UInt8) ∉ l) :
    (l ++ 10 :: rest).dropWhile (fun c => c != 10) = 10 :: rest := by
  induction l with
  | nil => simp [List.dropWhile]
  | cons x xs ih =>
    have hx : (x != 10) = true := by
      simp only [bne_iff_ne, ne_eq]
      exact fun e => h (by simp [e])
    have hxs : (10 : UInt8) ∉ xs := fun e => h (by simp [e])
    rw [List.cons_append, List.dropWhile_cons, if_pos hx, ih hxs]

theorem getline_framed (l : List UInt8) (rest : List UInt8) (h : (10 : UInt8) ∉ l) :
    getline (l ++ 10 :: rest) = some (l, rest) := by
  have htw := takeWhile_line l rest h
  have hdw := dropWhile_line l rest h
  cases hl : l ++ 10 :: rest with
  | nil => simp at hl
  | cons y ys =>
    rw [hl] at htw hdw
    simp [getline, htw, hdw]

theorem framed_cons (l : List UInt8) (ls : List (List UInt8)) :
    framed (l :: ls) = l ++ 10 :: framed ls := by
  simp [framed]

theorem framed_append (xs ys : List (List UInt8)) :
    framed (xs ++ ys) = framed xs ++ framed ys := by
  simp [framed]

theorem framed_eq_nil (ls : List (List UInt8)) : framed ls = [] ↔ ls = [] := by
  cases ls <;> simp [framed]

/-! ## The write step -/

/-- The result of `send_buffer` when the cursor is inside the buffer. -/
theorem send_buffer_eq (b : Build) (f : Nat → Int) (c : Nat) (w : World)
    (hc : c + b.LWS_SEND_BUFFER_POST_PADDING ≤ w.d.buf.length) :
    send_buffer b f c w =
      (let n := w.d.buf.length - c - b.LWS_SEND_BUFFER_POST_PADDING
       let w1 : World := { w with
         writes := w.writes ++ [{ off := c, len := n, data := (w.d.buf.drop c).take n, sent := f n }] }
       if f n < 0 then
         .thrown (THROW_RUNTIME b.FILE b.LINE_write ("websocket write failed on " ++ destination w.d)) w1
       else
         .returned 0 { w1 with
           d := { w.d with cur := if (f n).toNat < n then some (c + (f n).toNat) else none }
           on_writable := w.on_writable + 1 }) := by
  unfold send_buffer
  simp only [to_size_t_diff _ _ _ hc]
  by_cases hs : f (w.d.buf.length - c - b.LWS_SEND_BUFFER_POST_PADDING) < 0
  · simp [hs]
  · simp only [hs, if_false]
    rw [to_size_t_of_nonneg _ (by omega)]

theorem mem_lines_read_of_getLast (w : World) (line : List UInt8)
    (h : w.reads.getLast? = some (some line)) : line ∈ lines_read w := by
  have hm : some line ∈ w.reads := List.mem_of_getLast?_eq_some h
  unfold lines_read
  rw [List.mem_filterMap]
  exact ⟨some line, hm, rfl⟩

theorem take_drop_split (l : List UInt8) (c n s : Nat) :
    ((l.drop c).take n).take s ++ (l.drop (c + s)).take (n - s) = (l.drop c).take n := by
  have h1 : (l.drop (c + s)).take (n - s) = ((l.drop c).take n).drop s := by
    rw [List.drop_take, List.drop_drop]
  rw [h1, List.take_append_drop]

/-- A write from a state that satisfies the invariant with the cursor at `c`:
when it returns, it returns `0` in a state that satisfies the invariant
again, and it has read nothing. -/
theorem inv_send (b : Build) (f : Nat → Int) (c : Nat) (w : World)
    (hinv : Inv b w) (hcur : w.d.cur = some c) (r : Int) (w' : World)
    (h : send_buffer b f c w = .returned r w') :
    Inv b w' ∧ r = 0 ∧ w'.cin = w.cin ∧ w'.reads = w.reads ∧
      w'.d.was_closed = w.d.was_closed := by
  obtain ⟨hp, hcons, hwr⟩ := hinv
  obtain ⟨line, hlast, hlen, hpre, hlt⟩ := hp c hcur
  have hc : c + b.LWS_SEND_BUFFER_POST_PADDING ≤ w.d.buf.length := by omega
  have hu : unsent b w =
      (w.d.buf.drop c).take (w.d.buf.length - c - b.LWS_SEND_BUFFER_POST_PADDING) := by
    simp [unsent, hcur]
  rw [send_buffer_eq b f c w hc] at h
  generalize hn : w.d.buf.length - c - b.LWS_SEND_BUFFER_POST_PADDING = n at h hu
  simp only at h
  by_cases hneg : f n < 0
  · rw [if_pos hneg] at h
    exact Outcome.noConfusion h
  rw [if_neg hneg] at h
  injection h with hr hw
  have hmem : ∀ a ∈ w.writes ++ [{ off := c, len := n, data := (w.d.buf.drop c).take n, sent := f n }],
      b.LWS_SEND_BUFFER_PRE_PADDING ≤ a.off ∧ 1 ≤ a.len ∧ a.data.length = a.len ∧
      ∃ line ∈ lines_read w,
        a.off + a.len = b.LWS_SEND_BUFFER_PRE_PADDING + (line.length + 1) := by
    intro a ha
    simp only [List.mem_append, List.mem_singleton] at ha
    rcases ha with ha | ha
    · exact hwr a ha
    · subst ha
      refine ⟨hpre, ?_, ?_, line, mem_lines_read_of_getLast w line hlast, ?_⟩
      · show 1 ≤ n
        omega
      · show ((w.d.buf.drop c).take n).length = n
        rw [List.length_take, List.length_drop]
        omega
      · show c + n = _
        omega
  by_cases hsn : (f n).toNat < n
  · rw [if_pos hsn] at hw
    subst hw
    refine ⟨⟨?_, ?_, hmem⟩, hr.symm, rfl, rfl, rfl⟩
    · intro c' hc'
      injection hc' with hc'
      subst hc'
      exact ⟨line, hlast, hlen, (by show _ ≤ c + (f n).toNat; omega),
        (by show c + (f n).toNat < w.d.buf.length - b.LWS_SEND_BUFFER_POST_PADDING; omega)⟩
    · change _ = framed (lines_read w)
      rw [← hcons, hu]
      simp only [transmitted, List.flatMap_append, List.flatMap_cons, List.flatMap_nil,
        List.append_nil, accepted, unsent, List.append_assoc]
      congr 1
      have := take_drop_split w.d.buf c n (f n).toNat
      rw [← this]
      congr 2
      omega
  · rw [if_neg hsn] at hw
    subst hw
    refine ⟨⟨?_, ?_, hmem⟩, hr.symm, rfl, rfl, rfl⟩
    · intro c' hc'
      exact Option.noConfusion hc'
    · change _ = framed (lines_read w)
      rw [← hcons, hu]
      simp only [transmitted, List.flatMap_append, List.flatMap_cons, List.flatMap_nil,
        List.append_nil, accepted, unsent, List.append_assoc]
      congr 1
      apply List.take_of_length_le
      rw [List.length_take, List.length_drop]
      omega

theorem lines_read_some (w : World) (rs : List (Option (List UInt8))) (l : List UInt8)
    (h : w.reads = rs ++ [some l]) : lines_read w = rs.filterMap id ++ [l] := by
  simp [lines_read, h, List.filterMap_append]

theorem lines_read_none (w : World) (rs : List (Option (List UInt8)))
    (h : w.reads = rs ++ [none]) : lines_read w = rs.filterMap id := by
  simp [lines_read, h, List.filterMap_append]

theorem unsent_fetched (b : Build) (w : World) (line0 rest : List UInt8) :
    unsent b (fetched b w line0 rest) = line0 ++ [10] := by
  have hle : b.LWS_SEND_BUFFER_PRE_PADDING + (line0 ++ [10]).length ≤
      (resize w.d.buf (b.LWS_SEND_BUFFER_PRE_PADDING + (line0 ++ [10]).length +
        b.LWS_SEND_BUFFER_POST_PADDING)).length := by
    rw [length_resize]
    omega
  have hlen := length_copy (line0 ++ [10]) _ _ hle
  rw [length_resize] at hlen
  have hdrop := drop_copy (line0 ++ [10]) _ _ hle
  show List.take ((copy _ _ _).length - _ - _) (List.drop _ (copy _ _ _)) = _
  rw [hlen]
  have e : b.LWS_SEND_BUFFER_PRE_PADDING + (line0 ++ [10]).length +
      b.LWS_SEND_BUFFER_POST_PADDING - b.LWS_SEND_BUFFER_PRE_PADDING -
      b.LWS_SEND_BUFFER_POST_PADDING = (line0 ++ [10]).length := by omega
  rw [e, hdrop]

/-- The state between the two halves of a writable step that pops a line
satisfies the invariant, with the whole message unsent. -/
theorem inv_fetch (b : Build) (w : World) (hinv : Inv b w) (hcur : w.d.cur = none)
    (line0 rest : List UInt8) : Inv b (fetched b w line0 rest) := by
  obtain ⟨_, hcons, hwr⟩ := hinv
  have hle : b.LWS_SEND_BUFFER_PRE_PADDING + (line0 ++ [10]).length ≤
      (resize w.d.buf (b.LWS_SEND_BUFFER_PRE_PADDING + (line0 ++ [10]).length +
        b.LWS_SEND_BUFFER_POST_PADDING)).length := by
    rw [length_resize]
    omega
  have hlen := length_copy (line0 ++ [10]) _ _ hle
  rw [length_resize] at hlen
  have hl1 : (line0 ++ [10]).length = line0.length + 1 := by simp
  have hu0 : unsent b w = [] := by simp [unsent, hcur]
  rw [hu0, List.append_nil] at hcons
  refine ⟨?_, ?_, ?_⟩
  · intro c hc
    injection hc with hc
    subst hc
    refine ⟨line0, ?_, ?_, le_refl _, ?_⟩
    · show (w.reads ++ [some line0]).getLast? = _
      simp
    · show (copy _ _ _).length = _
      rw [hlen, hl1]
    · show _ < (copy _ _ _).length - _
      rw [hlen, hl1]
      omega
  · rw [lines_read_some _ w.reads line0 rfl, framed_append, unsent_fetched]
    change transmitted w ++ _ = framed (lines_read w) ++ _
    rw [hcons]
    simp [framed]
  · intro a ha
    obtain ⟨h1, h2, h3, l, hl, h4⟩ := hwr a ha
    refine ⟨h1, h2, h3, l, ?_, h4⟩
    rw [lines_read_some _ w.reads line0 rfl]
    exact List.mem_append_left _ hl

/-- A writable step that returns preserves the invariant and returns `0`. -/
theorem inv_writeable (b : Build) (f : Nat → Int) (w : World) (hinv : Inv b w)
    (r : Int) (w' : World) (h : client_writeable b f w = .returned r w') :
    Inv b w' ∧ r = 0 := by
  unfold client_writeable at h
  cases hcur : w.d.cur with
  | some c =>
    rw [hcur] at h
    have := inv_send b f c w hinv hcur r w' h
    exact ⟨this.1, this.2.1⟩
  | none =>
    rw [hcur] at h
    cases hg : getline w.cin with
    | none =>
      rw [hg] at h
      injection h with hr hw
      subst hw
      refine ⟨?_, hr.symm⟩
      obtain ⟨hp, hcons, hwr⟩ := hinv
      refine ⟨?_, ?_, ?_⟩
      · intro c hc
        have hc' : w.d.cur = some c := hc
        rw [hcur] at hc'
        exact Option.noConfusion hc'
      · rw [lines_read_none _ w.reads rfl]
        exact hcons
      · intro a ha
        rw [lines_read_none _ w.reads rfl]
        exact hwr a ha
    | some p =>
      obtain ⟨line0, rest⟩ := p
      rw [hg] at h
      have := inv_send b f _ _ (inv_fetch b w hinv hcur line0 rest) rfl r w' h
      exact ⟨this.1, this.2.1⟩

/-! ## The invariant along a session -/

/-- Every handler invocation that returns preserves the invariant and
returns `0`. -/
theorem inv_callback (b : Build) (reason : Reason) (f : Nat → Int) (w : World) (hinv : Inv b w)
    (r : Int) (w' : World) (h : ws_callback b reason f w = .returned r w') :
    Inv b w' ∧ r = 0 := by
  cases reason with
  | LWS_CALLBACK_CLIENT_ESTABLISHED =>
    injection h with hr hw
    subst hw
    exact ⟨hinv, hr.symm⟩
  | LWS_CALLBACK_CLIENT_CONNECTION_ERROR => exact Outcome.noConfusion h
  | LWS_CALLBACK_CLOSED =>
    injection h with hr hw
    subst hw
    exact ⟨hinv, hr.symm⟩
  | LWS_CALLBACK_CLIENT_WRITEABLE => exact inv_writeable b f w hinv r w' h
  | OTHER code =>
    injection h with hr hw
    subst hw
    exact ⟨hinv, hr.symm⟩

theorem inv_start (b : Build) (host : String) (port : Nat) (path : String) (cin : List UInt8) :
    Inv b (start host port path cin) := by
  refine ⟨?_, ?_, ?_⟩
  · intro c hc
    exact Option.noConfusion hc
  · rfl
  · intro a ha
    simp [start] at ha

theorem inv_run (b : Build) (evs : List Event) (w w' : World) (hinv : Inv b w)
    (h : run b evs w = some w') : Inv b w' := by
  induction evs generalizing w with
  | nil =>
    simp only [run, Option.some.injEq] at h
    exact h ▸ hinv
  | cons e es ih =>
    simp only [run] at h
    split at h
    · rename_i r w1 hstep
      exact ih w1 (inv_callback b e.reason e.write w hinv r w1 hstep).1 h
    · exact Option.noConfusion h

/-- The unsent bytes of a pending message in a state that satisfies the
invariant: there is at least one, and they are what the next write asks
for. -/
theorem unsent_pending (b : Build) (w : World) (hinv : Inv b w) (c : Nat)
    (hcur : w.d.cur = some c) :
    unsent b w = (w.d.buf.drop c).take (w.d.buf.length - c - b.LWS_SEND_BUFFER_POST_PADDING) ∧
    (unsent b w).length = w.d.buf.length - c - b.LWS_SEND_BUFFER_POST_PADDING ∧
    1 ≤ (unsent b w).length ∧
    c + b.LWS_SEND_BUFFER_POST_PADDING ≤ w.d.buf.length := by
  obtain ⟨line, _, hlen, hpre, hlt⟩ := hinv.1 c hcur
  have hu : unsent b w =
      (w.d.buf.drop c).take (w.d.buf.length - c - b.LWS_SEND_BUFFER_POST_PADDING) := by
    simp [unsent, hcur]
  have hl : (unsent b w).length = w.d.buf.length - c - b.LWS_SEND_BUFFER_POST_PADDING := by
    rw [hu, List.length_take, List.length_drop]
    omega
  exact ⟨hu, hl, by omega, by omega⟩

/-- The write of a pending message, in a state that satisfies the invariant:
the call asks for exactly the unsent bytes `u`; a negative answer throws, and
an answer `s ≥ 0` returns `0`, leaves `u` without its first `s` bytes unsent
and requests one more writable callback. -/
theorem send_spec (b : Build) (f : Nat → Int) (c : Nat) (w : World)
    (hinv : Inv b w) (hcur : w.d.cur = some c) :
    ∃ a : WriteCall, a.off = c ∧ a.len = (unsent b w).length ∧ a.data = unsent b w ∧
      a.sent = f (unsent b w).length ∧
      (send_buffer b f c w).world.writes = w.writes ++ [a] ∧
      (send_buffer b f c w).world.cin = w.cin ∧
      (send_buffer b f c w).world.reads = w.reads ∧
      (send_buffer b f c w).world.d.buf = w.d.buf ∧
      (send_buffer b f c w).world.d.was_closed = w.d.was_closed ∧
      (a.sent < 0 → ∃ what, send_buffer b f c w = .thrown what (send_buffer b f c w).world ∧
        (send_buffer b f c w).world.d.cur = some c ∧
        (send_buffer b f c w).world.on_writable = w.on_writable) ∧
      (0 ≤ a.sent → send_buffer b f c w = .returned 0 (send_buffer b f c w).world ∧
        Inv b (send_buffer b f c w).world ∧
        unsent b (send_buffer b f c w).world = (unsent b w).drop a.sent.toNat ∧
        (send_buffer b f c w).world.d.cur =
          (if a.sent.toNat < a.len then some (c + a.sent.toNat) else none) ∧
        (send_buffer b f c w).world.on_writable = w.on_writable + 1) := by
  obtain ⟨hu, hl, h1, hc⟩ := unsent_pending b w hinv c hcur
  have heq := send_buffer_eq b f c w hc
  simp only at heq
  have hu' : List.take (unsent b w).length (List.drop c w.d.buf) = unsent b w := by
    rw [hl]
    exact hu.symm
  rw [← hl, hu'] at heq
  refine ⟨⟨c, (unsent b w).length, unsent b w, f (unsent b w).length⟩, rfl, rfl, rfl, rfl, ?_⟩
  by_cases hneg : f (unsent b w).length < 0
  · rw [if_pos hneg] at heq
    rw [heq]
    refine ⟨rfl, rfl, rfl, rfl, rfl, fun _ => ⟨_, rfl, hcur, rfl⟩, fun h0 => ?_⟩
    exact absurd hneg (by simp only at h0; omega)
  · rw [if_neg hneg] at heq
    have hinv' := inv_send b f c w hinv hcur 0 _ heq
    rw [heq]
    refine ⟨rfl, rfl, rfl, rfl, rfl, fun h0 => absurd h0 hneg, fun _ => ⟨rfl, hinv'.1, ?_, rfl, rfl⟩⟩
    simp only [Outcome.world]
    by_cases hsn : (f (unsent b w).length).toNat < (unsent b w).length
    · rw [if_pos hsn]
      show (w.d.buf.drop (c + (f (unsent b w).length).toNat)).take
        (w.d.buf.length - (c + (f (unsent b w).length).toNat) -
          b.LWS_SEND_BUFFER_POST_PADDING) = _
      rw [hu, List.drop_take, List.drop_drop]
      congr 1
      omega
    · rw [if_neg hsn]
      show [] = _
      rw [List.drop_of_length_le (by omega)]

/-! ## The writable step -/

theorem writeable_pending (b : Build) (f : Nat → Int) (w : World) (c : Nat)
    (hcur : w.d.cur = some c) : client_writeable b f w = send_buffer b f c w := by
  unfold client_writeable
  rw [hcur]

theorem writeable_eof (b : Build) (f : Nat → Int) (w : World)
    (hcur : w.d.cur = none) (hcin : w.cin = []) :
    client_writeable b f w =
      .returned 0 { w with reads := w.reads ++ [none], d := { w.d with was_closed := true } } := by
  unfold client_writeable
  rw [hcur, hcin]
  rfl

theorem writeable_fetch (b : Build) (f : Nat → Int) (w : World) (line0 rest : List UInt8)
    (hcur : w.d.cur = none) (hg : getline w.cin = some (line0, rest)) :
    client_writeable b f w =
      send_buffer b f b.LWS_SEND_BUFFER_PRE_PADDING (fetched b w line0 rest) := by
  unfold client_writeable
  rw [hcur, hg]
  rfl

/-- The three cases of a writable step. -/
theorem writeable_cases (b : Build) (f : Nat → Int) (w : World) :
    (∃ c, w.d.cur = some c ∧ client_writeable b f w = send_buffer b f c w) ∨
    (w.d.cur = none ∧ w.cin = [] ∧ client_writeable b f w =
      .returned 0 { w with reads := w.reads ++ [none], d := { w.d with was_closed := true } }) ∨
    (∃ line0 rest, w.d.cur = none ∧ getline w.cin = some (line0, rest) ∧
      client_writeable b f w =
        send_buffer b f b.LWS_SEND_BUFFER_PRE_PADDING (fetched b w line0 rest)) := by
  cases hcur : w.d.cur with
  | some c => exact Or.inl ⟨c, rfl, writeable_pending b f w c hcur⟩
  | none =>
    cases hg : getline w.cin with
    | none =>
      have hcin := (getline_eq_none _).1 hg
      exact Or.inr (Or.inl ⟨rfl, hcin, writeable_eof b f w hcur hcin⟩)
    | some p =>
      obtain ⟨line0, rest⟩ := p
      exact Or.inr (Or.inr ⟨line0, rest, rfl, rfl, writeable_fetch b f w line0 rest hcur hg⟩)

/-- What a write does in any state: one call is recorded, nothing is read, the
buffer and the closed flag are kept; a negative answer throws before the
cursor moves or a callback is requested, another one returns `0` after one
callback request, and the cursor is reset only when the answer is at least
the length asked for. -/
theorem send_buffer_any (b : Build) (f : Nat → Int) (c : Nat) (w : World) :
    ∃ a : WriteCall, a.off = c ∧ a.sent = f a.len ∧
      (send_buffer b f c w).world.writes = w.writes ++ [a] ∧
      (send_buffer b f c w).world.cin = w.cin ∧
      (send_buffer b f c w).world.reads = w.reads ∧
      (send_buffer b f c w).world.d.buf = w.d.buf ∧
      (send_buffer b f c w).world.d.was_closed = w.d.was_closed ∧
      (a.sent < 0 → (∃ what, send_buffer b f c w = .thrown what (send_buffer b f c w).world) ∧
        (send_buffer b f c w).world.on_writable = w.on_writable ∧
        (send_buffer b f c w).world.d.cur = w.d.cur) ∧
      (0 ≤ a.sent → send_buffer b f c w = .returned 0 (send_buffer b f c w).world ∧
        (send_buffer b f c w).world.on_writable = w.on_writable + 1 ∧
        ((send_buffer b f c w).world.d.cur = none → (a.len : Int) ≤ a.sent)) := by
  generalize hn : to_size_t ((w.d.buf.length : Int) - (c : Int) -
    (b.LWS_SEND_BUFFER_POST_PADDING : Int)) = n
  have heq : send_buffer b f c w =
      if f n < 0 then
        .thrown (THROW_RUNTIME b.FILE b.LINE_write ("websocket write failed on " ++ destination w.d))
          { w with writes := w.writes ++
            [{ off := c, len := n, data := (w.d.buf.drop c).take n, sent := f n }] }
      else
        .returned 0 { w with
          writes := w.writes ++
            [{ off := c, len := n, data := (w.d.buf.drop c).take n, sent := f n }]
          d := { w.d with cur := if to_size_t (f n) < n then some (c + (f n).toNat) else none }
          on_writable := w.on_writable + 1 } := by
    unfold send_buffer
    rw [hn]
  refine ⟨⟨c, n, (w.d.buf.drop c).take n, f n⟩, rfl, rfl, ?_⟩
  by_cases hneg : f n < 0
  · rw [if_pos hneg] at heq
    rw [heq]
    exact ⟨rfl, rfl, rfl, rfl, rfl, fun _ => ⟨⟨_, rfl⟩, rfl, rfl⟩,
      fun h0 => absurd hneg (by simp only at h0; omega)⟩
  · rw [if_neg hneg] at heq
    rw [heq]
    refine ⟨rfl, rfl, rfl, rfl, rfl, fun h0 => absurd h0 hneg, fun _ => ⟨rfl, rfl, ?_⟩⟩
    intro hnone
    simp only [Outcome.world] at hnone
    by_cases hsn : to_size_t (f n) < n
    · rw [if_pos hsn] at hnone
      exact Option.noConfusion hnone
    · rw [to_size_t_of_nonneg _ (by omega)] at hsn
      show (n : Int) ≤ f n
      omega

/-! ## Writable requests -/

/-- The number of callback requests one invocation that returns makes. -/
theorem requests_of_callback (b : Build) (reason : Reason) (f : Nat → Int) (w : World)
    (r : Int) (w' : World) (h : ws_callback b reason f w = .returned r w') :
    (reason = .LWS_CALLBACK_CLIENT_ESTABLISHED → w'.on_writable = w.on_writable + 1) ∧
    (reason = .LWS_CALLBACK_CLIENT_WRITEABLE → (∃ a, w'.writes = w.writes ++ [a]) →
      w'.on_writable = w.on_writable + 1) ∧
    (reason = .LWS_CALLBACK_CLIENT_WRITEABLE → w.d.cur = none → w.cin = [] →
      w'.on_writable = w.on_writable ∧ w'.writes = w.writes) ∧
    (reason = .LWS_CALLBACK_CLOSED → w'.on_writable = w.on_writable) ∧
    (∀ code, reason = .OTHER code → w'.on_writable = w.on_writable) ∧
    w.on_writable ≤ w'.on_writable ∧ w'.on_writable ≤ w.on_writable + 1 := by
  cases reason with
  | LWS_CALLBACK_CLIENT_ESTABLISHED =>
    injection h with _ hw
    subst hw
    simp
  | LWS_CALLBACK_CLIENT_CONNECTION_ERROR => exact Outcome.noConfusion h
  | LWS_CALLBACK_CLOSED =>
    injection h with _ hw
    subst hw
    simp
  | OTHER code =>
    injection h with _ hw
    subst hw
    simp
  | LWS_CALLBACK_CLIENT_WRITEABLE =>
    have hws : ws_callback b .LWS_CALLBACK_CLIENT_WRITEABLE f w = client_writeable b f w := rfl
    rw [hws] at h
    have key : ∀ (c : Nat) (v : World), v.on_writable = w.on_writable →
        client_writeable b f w = send_buffer b f c v →
        w'.on_writable = w.on_writable + 1 := by
      intro c v hv he
      obtain ⟨a, _, _, _, _, _, _, _, hneg, hpos⟩ := send_buffer_any b f c v
      rw [← he, h] at hneg hpos
      by_cases hs : a.sent < 0
      · obtain ⟨what, hwhat⟩ := (hneg hs).1
        exact Outcome.noConfusion hwhat
      · have := (hpos (by omega)).2.1
        simp only [Outcome.world] at this
        omega
    rcases writeable_cases b f w with ⟨c, hc, he⟩ | ⟨hc, hcin, he⟩ | ⟨line0, rest, hc, hg, he⟩
    · have := key c w rfl he
      simp [this, hc]
    · rw [he] at h
      injection h with _ hw
      subst hw
      simp
    · have := key _ (fetched b w line0 rest) rfl he
      have hne : w.cin ≠ [] := by
        intro e
        rw [e] at hg
        exact Option.noConfusion hg
      simp [this, hne]

/-- After an established event the counter stays at most one as long as no
second established event is dispatched. -/
theorem serve_le_one (b : Build) (evs : List Event)
    (hev : ∀ e ∈ evs, e.reason ≠ .LWS_CALLBACK_CLIENT_ESTABLISHED)
    (s s' : Nat × World) (hs : s.1 ≤ 1) (h : serve b evs s = some s') : s'.1 ≤ 1 := by
  induction evs generalizing s with
  | nil =>
    simp only [serve, Option.some.injEq] at h
    exact h ▸ hs
  | cons e es ih =>
    simp only [serve] at h
    cases hd : dispatch b e s with
    | none =>
      rw [hd] at h
      exact Option.noConfusion h
    | some s1 =>
      rw [hd] at h
      refine ih (fun e' he' => hev e' (List.mem_cons_of_mem _ he')) s1 ?_ h
      unfold dispatch at hd
      simp only at hd
      cases hc : ws_callback b e.reason e.write s.2 with
      | thrown what v =>
        rw [hc] at hd
        exact Option.noConfusion hd
      | returned r v =>
        rw [hc] at hd
        injection hd with hd
        subst hd
        have hreq := requests_of_callback b e.reason e.write s.2 r v hc
        have hne := hev e (List.mem_cons_self _ _)
        by_cases hwr : e.reason = .LWS_CALLBACK_CLIENT_WRITEABLE
        · simp only [hwr, if_true]
          have := hreq.2.2.2.2.2
          omega
        · simp only [hwr, if_false]
          have h0 : v.on_writable = s.2.on_writable := by
            cases he : e.reason with
            | LWS_CALLBACK_CLIENT_ESTABLISHED => exact absurd he hne
            | LWS_CALLBACK_CLIENT_CONNECTION_ERROR =>
              rw [he] at hc
              exact Outcome.noConfusion hc
            | LWS_CALLBACK_CLOSED => exact hreq.2.2.2.1 he
            | LWS_CALLBACK_CLIENT_WRITEABLE => exact absurd he hwr
            | OTHER code => exact hreq.2.2.2.2.1 code he
          omega

/-! ## Two consecutive writes -/

/-- The write call a writable step makes in a state that satisfies the
invariant, when the step makes one: it asks for the unsent bytes of the
message pending at the time of the call, and an answer `0 ≤ s` smaller than
their number leaves the cursor inside the same buffer, `s` bytes further. -/
theorem first_attempt (b : Build) (f : Nat → Int) (w : World) (hinv : Inv b w)
    (a : WriteCall) (hw : (client_writeable b f w).world.writes = w.writes ++ [a])
    (h0 : 0 ≤ a.sent) (hlt : a.sent < a.data.length) :
    client_writeable b f w = .returned 0 (client_writeable b f w).world ∧
    Inv b (client_writeable b f w).world ∧
    (client_writeable b f w).world.d.cur = some (a.off + a.sent.toNat) ∧
    unsent b (client_writeable b f w).world = a.data.drop a.sent.toNat ∧
    a.data.length = a.len ∧
    a.data = ((client_writeable b f w).world.d.buf.drop a.off).take a.len := by
  have key : ∀ (c : Nat) (v : World), Inv b v → v.d.cur = some c → v.writes = w.writes →
      client_writeable b f w = send_buffer b f c v →
      client_writeable b f w = .returned 0 (client_writeable b f w).world ∧
      Inv b (client_writeable b f w).world ∧
      (client_writeable b f w).world.d.cur = some (a.off + a.sent.toNat) ∧
      unsent b (client_writeable b f w).world = a.data.drop a.sent.toNat ∧
      a.data.length = a.len ∧
      a.data = ((client_writeable b f w).world.d.buf.drop a.off).take a.len := by
    intro c v hv hc hvw he
    obtain ⟨a', hoff, hlen, hdata, hsent, hwr, _, _, hbuf, _, _, hpos⟩ := send_spec b f c v hv hc
    obtain ⟨hu, hl, _, _⟩ := unsent_pending b v hv c hc
    rw [← he] at hwr hpos hbuf
    rw [hvw, hw] at hwr
    have ha : a = a' := by simpa using List.append_cancel_left hwr
    subst ha
    obtain ⟨hret, hinv', huns, hcur, _⟩ := hpos h0
    have hs : a.sent.toNat < a.len := by
      rw [hlen, ← hdata]
      omega
    rw [if_pos hs] at hcur
    refine ⟨hret, hinv', ?_, ?_, ?_, ?_⟩
    · rw [hcur, hoff]
    · rw [huns, hdata]
    · rw [hdata, hlen]
    · rw [hbuf, hoff, hlen, hl, hdata]
      exact hu
  rcases writeable_cases b f w with ⟨c, hc, he⟩ | ⟨_, _, he⟩ | ⟨line0, rest, hc, _, he⟩
  · exact key c w hinv hc rfl he
  · rw [he] at hw
    have : [a] = [] := List.append_cancel_left (hw.symm.trans (List.append_nil _).symm)
    exact absurd this (by simp)
  · exact key _ (fetched b w line0 rest) (inv_fetch b w hinv hc line0 rest) rfl rfl he

/-- A writable step in a state with a pending message that satisfies the
invariant: nothing is read, the buffer is kept, and one write call is made for
exactly the unsent bytes. -/
theorem resumed_attempt (b : Build) (f : Nat → Int) (w : World) (hinv : Inv b w) (c : Nat)
    (hc : w.d.cur = some c) :
    (client_writeable b f w).world.reads = w.reads ∧
    (client_writeable b f w).world.cin = w.cin ∧
    (client_writeable b f w).world.d.buf = w.d.buf ∧
    ∃ a, (client_writeable b f w).world.writes = w.writes ++ [a] ∧ a.off = c ∧
      a.data = unsent b w ∧ a.len = (unsent b w).length ∧ a.sent = f a.len := by
  rw [writeable_pending b f w c hc]
  obtain ⟨a, hoff, hlen, hdata, hsent, hwr, hcin, hreads, hbuf, _, _, _⟩ :=
    send_spec b f c w hinv hc
  exact ⟨hreads, hcin, hbuf, a, hwr, hoff, hdata, hlen, by rw [hsent, hlen]⟩

/-! ## Accounting for the input -/

theorem length_lines_read_snoc (w w' : World) (r : Option (List UInt8))
    (h : w'.reads = w.reads ++ [r]) :
    (lines_read w').length ≤ (lines_read w).length + 1 := by
  unfold lines_read
  rw [h, List.filterMap_append, List.length_append]
  have := List.length_filterMap_le id [r]
  simp only [List.length_singleton] at this
  omega

/-- A writable step that returns keeps the account of the input. -/
theorem feeds_writeable (b : Build) (f : Nat → Int) (ls : List (List UInt8)) (w : World)
    (hfeeds : Feeds ls w) : Feeds ls (client_writeable b f w).world := by
  obtain ⟨rs, hcin, hrs, hls⟩ := hfeeds
  have key : ∀ (c : Nat) (v : World), Feeds ls v →
      client_writeable b f w = send_buffer b f c v → Feeds ls (client_writeable b f w).world := by
    intro c v hv he
    obtain ⟨rs', hcin', hrs', hls'⟩ := hv
    obtain ⟨a, _, _, _, hc, hr, _, _, _, _⟩ := send_buffer_any b f c v
    rw [← he] at hc hr
    refine ⟨rs', by rw [hc, hcin'], hrs', ?_⟩
    rw [lines_read, hr]
    exact hls'
  rcases writeable_cases b f w with ⟨c, _, he⟩ | ⟨_, _, he⟩ | ⟨line0, rest, _, hg, he⟩
  · exact key c w ⟨rs, hcin, hrs, hls⟩ he
  · rw [he]
    refine ⟨rs, hcin, hrs, ?_⟩
    rw [lines_read_none _ w.reads rfl]
    exact hls
  · refine key _ (fetched b w line0 rest) ?_ he
    cases rs with
    | nil =>
      rw [hcin] at hg
      exact Option.noConfusion hg
    | cons l rs' =>
      rw [hcin, framed_cons, getline_framed l _ (hrs l (List.mem_cons_self _ _))] at hg
      injection hg with hg
      injection hg with h1 h2
      subst h1
      subst h2
      refine ⟨rs', rfl, fun x hx => hrs x (List.mem_cons_of_mem _ hx), ?_⟩
      rw [lines_read_some _ w.reads l rfl, ← hls]
      simp [lines_read]

/-- A writable step keeps the closed flag tied to the end of the input. -/
theorem drained_writeable (b : Build) (f : Nat → Int) (w : World) (hd : Drained w) :
    Drained (client_writeable b f w).world := by
  have key : ∀ (c : Nat) (v : World), v.d.was_closed = false →
      client_writeable b f w = send_buffer b f c v → Drained (client_writeable b f w).world := by
    intro c v hv he hcl
    obtain ⟨a, _, _, _, _, _, _, hclosed, _, _⟩ := send_buffer_any b f c v
    rw [← he] at hclosed
    rw [hclosed, hv] at hcl
    exact Bool.noConfusion hcl
  rcases writeable_cases b f w with ⟨c, hc, he⟩ | ⟨hc, hcin, he⟩ | ⟨line0, rest, hc, hg, he⟩
  · refine key c w ?_ he
    cases hcl : w.d.was_closed with
    | false => rfl
    | true =>
      rw [(hd hcl).1] at hc
      exact Option.noConfusion hc
  · rw [he]
    exact fun _ => ⟨hc, hcin⟩
  · refine key _ (fetched b w line0 rest) ?_ he
    show w.d.was_closed = false
    cases hcl : w.d.was_closed with
    | false => rfl
    | true =>
      rw [(hd hcl).2] at hg
      exact Option.noConfusion hg

/-- A session of writable events keeps the account of the input and the tie
between the closed flag and the end of the input. -/
theorem feeds_run (b : Build) (ls : List (List UInt8)) (fs : List (Nat → Int)) (w w' : World)
    (hf : Feeds ls w) (hd : Drained w) (h : run b (fs.map writable) w = some w') :
    Feeds ls w' ∧ Drained w' := by
  induction fs generalizing w with
  | nil =>
    simp only [List.map_nil, run, Option.some.injEq] at h
    exact h ▸ ⟨hf, hd⟩
  | cons f fs ih =>
    simp only [List.map_cons, run] at h
    have hws : ws_callback b (writable f).reason (writable f).write w = client_writeable b f w :=
      rfl
    rw [hws] at h
    have h1 := feeds_writeable b f ls w hf
    have h2 := drained_writeable b f w hd
    cases hc : client_writeable b f w with
    | thrown what v =>
      rw [hc] at h
      exact Option.noConfusion h
    | returned r v =>
      rw [hc] at h h1 h2
      exact ih v h1 h2 h

/-! ## Chunks and the capped transport -/

theorem chunks_upto_nil (k fuel : Nat) : chunks_upto k fuel [] = [] := by
  cases fuel <;> simp [chunks_upto]

theorem chunks_upto_fuel (k : Nat) (hk : 1 ≤ k) (fuel fuel' : Nat) (l : List UInt8)
    (h : l.length ≤ fuel) (h' : l.length ≤ fuel') :
    chunks_upto k fuel l = chunks_upto k fuel' l := by
  induction fuel generalizing fuel' l with
  | zero =>
    have : l = [] := List.length_eq_zero.1 (by omega)
    rw [this, chunks_upto_nil, chunks_upto_nil]
  | succ n ih =>
    by_cases hl : l = []
    · rw [hl, chunks_upto_nil, chunks_upto_nil]
    · have hpos : 0 < l.length := List.length_pos.2 hl
      cases fuel' with
      | zero => omega
      | succ m =>
        simp only [chunks_upto, if_neg hl]
        rw [ih m (l.drop k) (by rw [List.length_drop]; omega) (by rw [List.length_drop]; omega)]

theorem chunks_nil (k : Nat) : chunks k [] = [] := rfl

theorem chunks_cons (k : Nat) (hk : 1 ≤ k) (l : List UInt8) (hl : l ≠ []) :
    chunks k l = l.take k :: chunks k (l.drop k) := by
  have hpos : 0 < l.length := List.length_pos.2 hl
  unfold chunks
  obtain ⟨n, hn⟩ : ∃ n, l.length = n + 1 := ⟨l.length - 1, by omega⟩
  rw [hn]
  simp only [chunks_upto, if_neg hl]
  rw [chunks_upto_fuel k hk n (l.drop k).length (l.drop k)
    (by rw [List.length_drop]; omega) (le_refl _)]

/-- A list of `m` bytes has `⌈m / k⌉` chunks. -/
theorem length_chunks (k : Nat) (hk : 1 ≤ k) (l : List UInt8) :
    (chunks k l).length = (l.length + (k - 1)) / k := by
  suffices hall : ∀ (n : Nat) (l : List UInt8), l.length = n →
      (chunks k l).length = (l.length + (k - 1)) / k from hall _ l rfl
  intro n
  induction n using Nat.strong_induction_on with
  | _ n ih =>
    intro l hn
    subst hn
    by_cases hl : l = []
    · subst hl
      rw [chunks_nil]
      simp only [List.length_nil, Nat.zero_add]
      exact (Nat.div_eq_of_lt (by omega)).symm
    · have hpos : 0 < l.length := List.length_pos.2 hl
      rw [chunks_cons k hk l hl, List.length_cons,
        ih (l.drop k).length (by rw [List.length_drop]; omega) (l.drop k) rfl,
        List.length_drop]
      by_cases hge : k ≤ l.length
      · have e : l.length + (k - 1) = (l.length - k + (k - 1)) + k := by omega
        rw [e, Nat.add_div_right _ (by omega)]
      · have e1 : l.length - k + (k - 1) < k := by omega
        rw [Nat.div_eq_of_lt e1]
        have e2 : (l.length + (k - 1)) / k = 1 := by
          apply Nat.div_eq_of_lt_le <;> omega
        rw [e2]

/-- The chunks of a list, concatenated, are the list; each has between one
and `k` bytes. -/
theorem flatten_chunks (k : Nat) (hk : 1 ≤ k) (l : List UInt8) :
    (chunks k l).flatten = l ∧ ∀ c ∈ chunks k l, 1 ≤ c.length ∧ c.length ≤ k := by
  suffices hall : ∀ (n : Nat) (l : List UInt8), l.length = n →
      ((chunks k l).flatten = l ∧ ∀ c ∈ chunks k l, 1 ≤ c.length ∧ c.length ≤ k) from
    hall _ l rfl
  intro n
  induction n using Nat.strong_induction_on with
  | _ n ih =>
    intro l hn
    by_cases hl : l = []
    · subst hl
      rw [chunks_nil]
      simp
    · have hpos : 0 < l.length := List.length_pos.2 hl
      obtain ⟨h1, h2⟩ := ih (l.drop k).length (by rw [List.length_drop]; omega) (l.drop k) rfl
      rw [chunks_cons k hk l hl, List.flatten_cons, h1, List.take_append_drop]
      refine ⟨rfl, ?_⟩
      intro c hc
      rcases List.mem_cons.1 hc with hc | hc
      · subst hc
        rw [List.length_take]
        omega
      · exact h2 c hc

/-- Every chunk but the last has exactly `k` bytes. -/
theorem length_chunks_dropLast (k : Nat) (hk : 1 ≤ k) (l : List UInt8) :
    ∀ c ∈ (chunks k l).dropLast, c.length = k := by
  suffices hall : ∀ (n : Nat) (l : List UInt8), l.length = n →
      ∀ c ∈ (chunks k l).dropLast, c.length = k from hall _ l rfl
  intro n
  induction n using Nat.strong_induction_on with
  | _ n ih =>
    intro l hn
    subst hn
    by_cases hl : l = []
    · subst hl
      rw [chunks_nil]
      simp
    · have hpos : 0 < l.length := List.length_pos.2 hl
      have hrec := ih (l.drop k).length (by rw [List.length_drop]; omega) (l.drop k) rfl
      rw [chunks_cons k hk l hl]
      by_cases hd : l.drop k = []
      · rw [hd, chunks_nil]
        simp
      · rw [chunks_cons k hk _ hd, List.dropLast_cons₂]
        rw [chunks_cons k hk _ hd] at hrec
        intro c hc
        rcases List.mem_cons.1 hc with hc | hc
        · subst hc
          rw [List.length_take]
          have : k < l.length := by
            by_contra hlt
            exact hd (List.drop_of_length_le (by omega))
          omega
        · exact hrec c hc

theorem chunk_plan_cons (k : Nat) (l : List UInt8) (ls : List (List UInt8)) :
    chunk_plan k (l :: ls) = chunks k (l ++ [10]) ++ chunk_plan k ls := by
  simp [chunk_plan]

theorem take_capped (k : Nat) (u : List UInt8) :
    u.take (capped k u.length).toNat = u.take k ∧ u.drop (capped k u.length).toNat = u.drop k := by
  have e : (capped k u.length).toNat = min k u.length := by
    unfold capped
    omega
  rw [e]
  by_cases h : k ≤ u.length
  · rw [Nat.min_eq_left h]
    exact ⟨rfl, rfl⟩
  · rw [Nat.min_eq_right (by omega)]
    rw [List.take_of_length_le (le_refl _), List.take_of_length_le (by omega),
      List.drop_of_length_le (le_refl _), List.drop_of_length_le (by omega)]
    exact ⟨rfl, rfl⟩

/-- The write of a pending message over a transport that accepts `k` bytes:
the first chunk of the unsent bytes is accepted and the rest stays unsent. -/
theorem capped_send (k : Nat) (b : Build) (c : Nat) (v : World) (hv : Inv b v)
    (hc : v.d.cur = some c) :
    ∃ a, send_buffer b (capped k) c v = .returned 0 (send_buffer b (capped k) c v).world ∧
      Inv b (send_buffer b (capped k) c v).world ∧
      (send_buffer b (capped k) c v).world.writes = v.writes ++ [a] ∧
      accepted a = (unsent b v).take k ∧
      unsent b (send_buffer b (capped k) c v).world = (unsent b v).drop k ∧
      (send_buffer b (capped k) c v).world.cin = v.cin ∧
      (send_buffer b (capped k) c v).world.d.was_closed = v.d.was_closed := by
  obtain ⟨a, _, _, hdata, hsent, hwr, hcin, _, _, hcl, _, hpos⟩ := send_spec b (capped k) c v hv hc
  have h0 : 0 ≤ a.sent := by
    rw [hsent]
    unfold capped
    omega
  obtain ⟨hret, hinv, huns, _, _⟩ := hpos h0
  obtain ⟨ht, hd⟩ := take_capped k (unsent b v)
  refine ⟨a, hret, hinv, hwr, ?_, ?_, hcin, hcl⟩
  · unfold accepted
    rw [hdata, hsent]
    exact ht
  · rw [huns, hsent]
    exact hd

/-- One writable step over a transport that accepts `k` bytes, while chunks
are left: the first of them is accepted by the one write call of the step. -/
theorem capped_step (k : Nat) (hk : 1 ≤ k) (b : Build) (w : World) (rs : List (List UInt8))
    (hinv : Inv b w) (hcin : w.cin = framed rs) (hrs : ∀ l ∈ rs, (10 : UInt8) ∉ l)
    (hcl : w.d.was_closed = false) (ch : List UInt8) (rest : List (List UInt8))
    (hleft : chunks_left k b w rs = ch :: rest) :
    ∃ w' a rs', client_writeable b (capped k) w = .returned 0 w' ∧ Inv b w' ∧
      w'.writes = w.writes ++ [a] ∧ accepted a = ch ∧ w'.cin = framed rs' ∧
      (∀ l ∈ rs', (10 : UInt8) ∉ l) ∧ w'.d.was_closed = false ∧
      chunks_left k b w' rs' = rest := by
  have key : ∀ (c : Nat) (v : World) (rs' : List (List UInt8)), Inv b v → v.d.cur = some c →
      v.cin = framed rs' → (∀ l ∈ rs', (10 : UInt8) ∉ l) → v.d.was_closed = false →
      v.writes = w.writes → chunks_left k b v rs' = ch :: rest →
      client_writeable b (capped k) w = send_buffer b (capped k) c v →
      ∃ w' a rs', client_writeable b (capped k) w = .returned 0 w' ∧ Inv b w' ∧
        w'.writes = w.writes ++ [a] ∧ accepted a = ch ∧ w'.cin = framed rs' ∧
        (∀ l ∈ rs', (10 : UInt8) ∉ l) ∧ w'.d.was_closed = false ∧
        chunks_left k b w' rs' = rest := by
    intro c v rs' hv hc hvcin hrs' hvcl hvw hvleft he
    obtain ⟨a, hret, hinv', hwr, hacc, huns, hcin', hcl'⟩ := capped_send k b c v hv hc
    obtain ⟨_, _, hpos, _⟩ := unsent_pending b v hv c hc
    have hne : unsent b v ≠ [] := by
      intro e
      rw [e] at hpos
      simp at hpos
    unfold chunks_left at hvleft
    rw [chunks_cons k hk _ hne, List.cons_append] at hvleft
    injection hvleft with h1 h2
    rw [← he] at hret hinv' hwr huns hcin' hcl'
    refine ⟨_, a, rs', hret, hinv', by rw [hwr, hvw], by rw [hacc, h1], by rw [hcin', hvcin],
      hrs', by rw [hcl', hvcl], ?_⟩
    unfold chunks_left
    rw [huns, h2]
  rcases writeable_cases b (capped k) w with ⟨c, hc, he⟩ | ⟨hc, hnil, _⟩ | ⟨line0, rest', hc, hg, he⟩
  · exact key c w rs hinv hc hcin hrs hcl rfl hleft he
  · rw [hnil] at hcin
    have hrs0 : rs = [] := (framed_eq_nil rs).1 hcin.symm
    have : chunks_left k b w rs = [] := by
      simp [chunks_left, unsent, hc, hrs0, chunks_nil, chunk_plan]
    rw [this] at hleft
    exact List.noConfusion hleft
  · cases rs with
    | nil =>
      rw [hcin] at hg
      exact Option.noConfusion hg
    | cons l rs' =>
      rw [hcin, framed_cons, getline_framed l _ (hrs l (List.mem_cons_self _ _))] at hg
      injection hg with hg
      injection hg with h1 h2
      subst h1
      subst h2
      refine key _ (fetched b w l (framed rs')) rs' (inv_fetch b w hinv hc l _) rfl rfl
        (fun x hx => hrs x (List.mem_cons_of_mem _ hx)) hcl rfl ?_ he
      have h0 : unsent b w = [] := by simp [unsent, hc]
      unfold chunks_left at hleft ⊢
      rw [h0, chunks_nil, List.nil_append, chunk_plan_cons] at hleft
      rw [unsent_fetched]
      exact hleft

/-- The writable step after the last chunk: it closes the session without a
write call. -/
theorem capped_close (k : Nat) (hk : 1 ≤ k) (b : Build) (f : Nat → Int) (w : World)
    (rs : List (List UInt8)) (hinv : Inv b w) (hcin : w.cin = framed rs)
    (hleft : chunks_left k b w rs = []) :
    ∃ w', client_writeable b f w = .returned 0 w' ∧ w'.d.was_closed = true ∧
      w'.writes = w.writes := by
  unfold chunks_left at hleft
  obtain ⟨h1, h2⟩ := List.append_eq_nil.1 hleft
  have hc : w.d.cur = none := by
    cases hcur : w.d.cur with
    | none => rfl
    | some c =>
      obtain ⟨_, _, hpos, _⟩ := unsent_pending b w hinv c hcur
      have hne : unsent b w ≠ [] := by
        intro e
        rw [e] at hpos
        simp at hpos
      rw [chunks_cons k hk _ hne] at h1
      exact List.noConfusion h1
  have hrs : rs = [] := by
    cases rs with
    | nil => rfl
    | cons l rs' =>
      rw [chunk_plan_cons, chunks_cons k hk (l ++ [10]) (by simp)] at h2
      exact List.noConfusion h2
  rw [hrs] at hcin
  exact ⟨_, writeable_eof b f w hc hcin, rfl, rfl⟩

theorem run_writable_cons (b : Build) (f : Nat → Int) (es : List Event) (w w1 : World)
    (h : client_writeable b f w = .returned 0 w1) :
    run b (writable f :: es) w = run b es w1 := by
  have hws : ws_callback b (writable f).reason (writable f).write w = client_writeable b f w :=
    rfl
  simp only [run]
  rw [hws, h]

/-- A session of `j` writable events over a transport that accepts `k` bytes,
while at least `j` chunks are left: the first `j` of them are accepted, one
per event. -/
theorem run_capped (k : Nat) (hk : 1 ≤ k) (b : Build) (j : Nat) (w : World)
    (rs : List (List UInt8)) (hinv : Inv b w) (hcin : w.cin = framed rs)
    (hrs : ∀ l ∈ rs, (10 : UInt8) ∉ l) (hcl : w.d.was_closed = false)
    (hj : j ≤ (chunks_left k b w rs).length) :
    ∃ w' rs', run b (List.replicate j (writable (capped k))) w = some w' ∧ Inv b w' ∧
      w'.cin = framed rs' ∧
      w'.writes.map accepted = w.writes.map accepted ++ (chunks_left k b w rs).take j ∧
      w'.writes.length = w.writes.length + j ∧ w'.d.was_closed = false ∧
      chunks_left k b w' rs' = (chunks_left k b w rs).drop j := by
  induction j generalizing w rs with
  | zero => exact ⟨w, rs, rfl, hinv, hcin, by simp, rfl, hcl, rfl⟩
  | succ j ih =>
    cases hleft : chunks_left k b w rs with
    | nil =>
      rw [hleft] at hj
      simp at hj
    | cons ch rest =>
      rw [hleft] at hj
      obtain ⟨w1, a, rs1, hstep, hinv1, hwr1, hacc, hcin1, hrs1, hcl1, hleft1⟩ :=
        capped_step k hk b w rs hinv hcin hrs hcl ch rest hleft
      rw [← hleft1] at hj
      obtain ⟨w', rs', hrun, hinv', hcin', hmap, hlen, hcl', hleft'⟩ :=
        ih w1 rs1 hinv1 hcin1 hrs1 hcl1 (by simpa using hj)
      refine ⟨w', rs', ?_, hinv', hcin', ?_, ?_, hcl', ?_⟩
      · rw [List.replicate_succ, run_writable_cons b (capped k) _ w w1 hstep]
        exact hrun
      · rw [hmap, hwr1, hleft1]
        simp [hacc]
      · rw [hlen, hwr1]
        simp
        omega
      · rw [hleft', hleft1]
        rfl

theorem run_append (b : Build) (xs ys : List Event) (w w1 : World)
    (h : run b xs w = some w1) : run b (xs ++ ys) w = run b ys w1 := by
  induction xs generalizing w with
  | nil =>
    simp only [run, Option.some.injEq] at h
    rw [h]
    rfl
  | cons e es ih =>
    simp only [run, List.cons_append] at h ⊢
    cases hc : ws_callback b e.reason e.write w with
    | thrown what v =>
      rw [hc] at h
      exact Option.noConfusion h
    | returned r v =>
      rw [hc] at h
      exact ih v h

/-! ## The properties of the specification -/

/-- C1. Order preservation of the write pump: let standard input hold the
lines `L1 .. Ln`, each followed by a newline, and let the session be driven
from the initial state by writable events, with any answers of the transport
the handler does not throw on, up to a state in which `was_closed` is set.
Then the byte ranges accepted by the transport over all write calls,
concatenated in order, are `L1 ++ "\n" ++ ... ++ Ln ++ "\n"`, and the lines
read are `L1 .. Ln` in order. -/
theorem C1_order_preservation (b : Build) (host : String) (port : Nat) (path : String)
    (ls : List (List UInt8)) (fs : List (Nat → Int)) (w : World)
    (hls : ∀ l ∈ ls, (10 : UInt8) ∉ l)
    (hrun : run b (fs.map writable) (start host port path (framed ls)) = some w)
    (hclosed : w.d.was_closed = true) :
    transmitted w = framed ls ∧ lines_read w = ls := by
  have hinv := inv_run b _ _ w (inv_start b host port path (framed ls)) hrun
  have h0 : Feeds ls (start host port path (framed ls)) := ⟨ls, rfl, hls, rfl⟩
  have hd0 : Drained (start host port path (framed ls)) := fun h => Bool.noConfusion h
  obtain ⟨⟨rs, hcin, _, hlines⟩, hd⟩ := feeds_run b ls fs _ w h0 hd0 hrun
  obtain ⟨hcur, hnil⟩ := hd hclosed
  rw [hnil] at hcin
  have hrs : rs = [] := (framed_eq_nil rs).1 hcin.symm
  rw [hrs, List.append_nil] at hlines
  have hcons := hinv.2.1
  rw [hlines] at hcons
  refine ⟨?_, hlines⟩
  simpa [unsent, hcur] using hcons

/-- C1 on the input `hello\nworld\n`, with writes answered by 2, 0, 4 and 6
accepted bytes. -/
theorem C1_order_preservation_witness :
    (∀ l ∈ [bytes "hello", bytes "world"], (10 : UInt8) ∉ l) ∧
    run sample_build
        (List.map writable [fun _ => 2, fun _ => 0, fun _ => 4, fun len => (len : Int), fun _ => 0])
        (start "localhost" 8080 "/chat" (framed [bytes "hello", bytes "world"])) =
      some sample_uneven ∧
    sample_uneven.d.was_closed = true ∧
    transmitted sample_uneven = framed [bytes "hello", bytes "world"] ∧
    lines_read sample_uneven = [bytes "hello", bytes "world"] :=
  ⟨by decide, by decide, by decide,
    C1_order_preservation sample_build "localhost" 8080 "/chat" [bytes "hello", bytes "world"]
      [fun _ => 2, fun _ => 0, fun _ => 4, fun len => (len : Int), fun _ => 0] sample_uneven
      (by decide) (by decide) (by decide)⟩

/-- C2. Resumption correctness: in a state a session reaches from the initial
state, let a writable step make a write call `a1` (for a message just read or
one already pending) that is answered with `k`, `0 ≤ k`, smaller than the
number of bytes asked for.  Then the step returns `0`, and the next writable
step reads nothing from standard input, leaves the buffer as it is and makes
one write call `a2`, for exactly the bytes of `a1` without the first `k`: it
starts `k` bytes further in the same buffer and asks for `k` bytes less. -/
theorem C2_resumption (b : Build) (host : String) (port : Nat) (path : String)
    (cin : List UInt8) (evs : List Event) (w : World) (f1 f2 : Nat → Int) (a1 : WriteCall)
    (hreach : run b evs (start host port path cin) = some w)
    (hw : (ws_callback b .LWS_CALLBACK_CLIENT_WRITEABLE f1 w).world.writes = w.writes ++ [a1])
    (h0 : 0 ≤ a1.sent) (hlt : a1.sent < a1.data.length) :
    ∃ w1, ws_callback b .LWS_CALLBACK_CLIENT_WRITEABLE f1 w = .returned 0 w1 ∧
      (ws_callback b .LWS_CALLBACK_CLIENT_WRITEABLE f2 w1).world.reads = w1.reads ∧
      (ws_callback b .LWS_CALLBACK_CLIENT_WRITEABLE f2 w1).world.cin = w1.cin ∧
      (ws_callback b .LWS_CALLBACK_CLIENT_WRITEABLE f2 w1).world.d.buf = w1.d.buf ∧
      ∃ a2, (ws_callback b .LWS_CALLBACK_CLIENT_WRITEABLE f2 w1).world.writes =
          w1.writes ++ [a2] ∧
        a2.data = a1.data.drop a1.sent.toNat ∧
        a2.off = a1.off + a1.sent.toNat ∧
        a2.len = a1.len - a1.sent.toNat ∧
        a1.data = (w1.d.buf.drop a1.off).take a1.len ∧
        a2.data = (w1.d.buf.drop a2.off).take a2.len := by
  have hinv := inv_run b evs _ w (inv_start b host port path cin) hreach
  have hws : ∀ f v, ws_callback b .LWS_CALLBACK_CLIENT_WRITEABLE f v = client_writeable b f v :=
    fun _ _ => rfl
  rw [hws] at hw
  simp only [hws]
  obtain ⟨hret, hinv1, hcur1, huns1, hlen1, hdata1⟩ := first_attempt b f1 w hinv a1 hw h0 hlt
  refine ⟨_, hret, ?_⟩
  obtain ⟨hreads, hcin, hbuf, a2, hwr2, hoff2, hdata2, hlen2, _⟩ :=
    resumed_attempt b f2 _ hinv1 _ hcur1
  obtain ⟨hu, _, _, _⟩ := unsent_pending b _ hinv1 _ hcur1
  refine ⟨hreads, hcin, hbuf, a2, hwr2, ?_, hoff2, ?_, hdata1, ?_⟩
  · rw [hdata2, huns1]
  · rw [hlen2, huns1, List.length_drop, hlen1]
  · rw [hdata2, hoff2, hlen2]
    rw [hu]
    congr 1
    rw [← hu, huns1, List.length_drop]
    have := congrArg List.length hu
    rw [huns1] at this
    simpa using this.symm

/-- C2 on the input `hello\n`: the first write is answered by 3 accepted
bytes, the second asks for `lo\n`. -/
theorem C2_resumption_witness :
    run sample_build [] sample_hello = some sample_hello ∧
    (ws_callback sample_build .LWS_CALLBACK_CLIENT_WRITEABLE (capped 3) sample_hello).world.writes =
      sample_hello.writes ++ [sample_call] ∧
    0 ≤ sample_call.sent ∧ sample_call.sent < sample_call.data.length ∧
    ∃ w1, ws_callback sample_build .LWS_CALLBACK_CLIENT_WRITEABLE (capped 3) sample_hello =
        .returned 0 w1 ∧
      (ws_callback sample_build .LWS_CALLBACK_CLIENT_WRITEABLE (capped 2) w1).world.reads =
        w1.reads ∧
      (ws_callback sample_build .LWS_CALLBACK_CLIENT_WRITEABLE (capped 2) w1).world.cin =
        w1.cin ∧
      (ws_callback sample_build .LWS_CALLBACK_CLIENT_WRITEABLE (capped 2) w1).world.d.buf =
        w1.d.buf ∧
      ∃ a2, (ws_callback sample_build .LWS_CALLBACK_CLIENT_WRITEABLE (capped 2) w1).world.writes =
          w1.writes ++ [a2] ∧
        a2.data = sample_call.data.drop sample_call.sent.toNat ∧
        a2.off = sample_call.off + sample_call.sent.toNat ∧
        a2.len = sample_call.len - sample_call.sent.toNat ∧
        sample_call.data = (w1.d.buf.drop sample_call.off).take sample_call.len ∧
        a2.data = (w1.d.buf.drop a2.off).take a2.len :=
  ⟨rfl, by decide, by decide, by decide,
    C2_resumption sample_build "localhost" 8080 "/chat" (bytes "hello\n") [] sample_hello
      (capped 3) (capped 2) sample_call rfl (by decide) (by decide) (by decide)⟩

/-- C3. Termination on end-of-input: in every state with no pending message
and standard input at its end, a writable step returns `0` (it does not
throw), sets `was_closed`, makes no write call and requests no further
writable callback. -/
theorem C3_end_of_input (b : Build) (f : Nat → Int) (w : World)
    (hcur : w.d.cur = none) (hcin : w.cin = []) :
    ∃ w', ws_callback b .LWS_CALLBACK_CLIENT_WRITEABLE f w = .returned 0 w' ∧
      w'.d.was_closed = true ∧ w'.writes = w.writes ∧ w'.on_writable = w.on_writable ∧
      w'.d.cur = none ∧ w'.cin = [] :=
  ⟨_, writeable_eof b f w hcur hcin, rfl, rfl, rfl, hcur, hcin⟩

/-- C3 on the empty input: the first writable step closes the session
without a write call. -/
theorem C3_end_of_input_witness : (start "localhost" 8080 "/chat" []).d.cur = none ∧
    (start "localhost" 8080 "/chat" []).cin = [] ∧
    ∃ w', ws_callback sample_build .LWS_CALLBACK_CLIENT_WRITEABLE (capped 3)
        (start "localhost" 8080 "/chat" []) = .returned 0 w' ∧
      w'.d.was_closed = true ∧ w'.writes = [] ∧ w'.on_writable = 0 ∧
      w'.d.cur = none ∧ w'.cin = [] :=
  ⟨rfl, rfl, C3_end_of_input sample_build (capped 3) (start "localhost" 8080 "/chat" []) rfl rfl⟩

/-- C4. Single in-flight message: in every state a session reaches from the
initial state, a writable step calls `std::getline` exactly once when no
message is pending at its start and not at all when one is pending, so at most
one line is consumed per step, the one `std::getline` returns on the unread
input; a step that makes a write call leaves no
message pending only if the answer is at least the number of bytes asked for;
and whenever no message is pending, and thus a new line may be fetched, every
byte of every line read so far has been accepted by the transport. -/
theorem C4_single_in_flight (b : Build) (host : String) (port : Nat) (path : String)
    (cin : List UInt8) (evs : List Event) (w : World) (f : Nat → Int)
    (hreach : run b evs (start host port path cin) = some w) :
    (w.d.cur = none →
      ∃ r, (ws_callback b .LWS_CALLBACK_CLIENT_WRITEABLE f w).world.reads = w.reads ++ [r] ∧
        getline w.cin = r.map (fun l =>
          (l, (ws_callback b .LWS_CALLBACK_CLIENT_WRITEABLE f w).world.cin))) ∧
    (w.d.cur ≠ none →
      (ws_callback b .LWS_CALLBACK_CLIENT_WRITEABLE f w).world.reads = w.reads ∧
      (ws_callback b .LWS_CALLBACK_CLIENT_WRITEABLE f w).world.cin = w.cin) ∧
    (lines_read (ws_callback b .LWS_CALLBACK_CLIENT_WRITEABLE f w).world).length ≤
      (lines_read w).length + 1 ∧
    (∀ a, (ws_callback b .LWS_CALLBACK_CLIENT_WRITEABLE f w).world.writes = w.writes ++ [a] →
      (ws_callback b .LWS_CALLBACK_CLIENT_WRITEABLE f w).world.d.cur = none →
      (a.len : Int) ≤ a.sent ∧ a.data.length = a.len) ∧
    (w.d.cur = none → transmitted w = framed (lines_read w)) := by
  have hinv := inv_run b evs _ w (inv_start b host port path cin) hreach
  have hws : ws_callback b .LWS_CALLBACK_CLIENT_WRITEABLE f w = client_writeable b f w := rfl
  rw [hws]
  have hlast : w.d.cur = none → transmitted w = framed (lines_read w) := by
    intro hc
    have := hinv.2.1
    simpa [unsent, hc] using this
  have key : ∀ (c : Nat) (v : World), Inv b v → v.d.cur = some c → v.writes = w.writes →
      client_writeable b f w = send_buffer b f c v →
      (client_writeable b f w).world.reads = v.reads ∧
      (client_writeable b f w).world.cin = v.cin ∧
      (∀ a, (client_writeable b f w).world.writes = w.writes ++ [a] →
        (client_writeable b f w).world.d.cur = none →
        (a.len : Int) ≤ a.sent ∧ a.data.length = a.len) := by
    intro c v hv hc hvw he
    obtain ⟨a', _, hlen, hdata, _, hwr, hcin, hreads, _, _, hneg, hpos⟩ :=
      send_spec b f c v hv hc
    rw [← he] at hwr hcin hreads hneg hpos
    refine ⟨hreads, hcin, ?_⟩
    intro a ha hnone
    rw [hvw] at hwr
    have haa : a = a' := by
      rw [hwr] at ha
      simpa using (List.append_cancel_left ha).symm
    subst haa
    by_cases hs : a.sent < 0
    · obtain ⟨_, _, hcur, _⟩ := hneg hs
      rw [hcur] at hnone
      exact Option.noConfusion hnone
    · obtain ⟨_, _, _, hcur, _⟩ := hpos (by omega)
      rw [hcur] at hnone
      by_cases hsn : a.sent.toNat < a.len
      · rw [if_pos hsn] at hnone
        exact Option.noConfusion hnone
      · exact ⟨by omega, by rw [hdata, hlen]⟩
  rcases writeable_cases b f w with ⟨c, hc, he⟩ | ⟨hc, hcin, he⟩ | ⟨line0, rest, hc, hg, he⟩
  · obtain ⟨hreads, hcin', hattempt⟩ := key c w hinv hc rfl he
    refine ⟨fun h => ?_, fun _ => ⟨hreads, hcin'⟩, ?_, hattempt, hlast⟩
    · rw [hc] at h
      exact Option.noConfusion h
    · rw [lines_read, hreads]
      exact Nat.le_succ _
  · rw [he]
    refine ⟨fun _ => ⟨none, rfl, ?_⟩, fun h => absurd hc h, ?_, ?_, hlast⟩
    · rw [hcin]
      rfl
    · exact length_lines_read_snoc w _ none rfl
    · intro a ha
      have : [a] = [] := List.append_cancel_left (ha.symm.trans (List.append_nil _).symm)
      exact absurd this (by simp)
  · obtain ⟨hreads, hcin', hattempt⟩ :=
      key _ (fetched b w line0 rest) (inv_fetch b w hinv hc line0 rest) rfl rfl he
    refine ⟨fun _ => ⟨some line0, hreads, ?_⟩, fun h => absurd hc h, ?_, hattempt, hlast⟩
    · rw [hcin', hg]
      rfl
    · exact length_lines_read_snoc w _ (some line0) hreads

/-- C4 in the state reached on the input `hello\n` by one write of 3 accepted
bytes. -/
theorem C4_single_in_flight_witness :
    run sample_build [writable (capped 3)] (start "localhost" 8080 "/chat" (bytes "hello\n")) =
      some sample_pending ∧
    (sample_pending.d.cur = none →
      ∃ r, (ws_callback sample_build .LWS_CALLBACK_CLIENT_WRITEABLE (capped 3)
          sample_pending).world.reads = sample_pending.reads ++ [r] ∧
        getline sample_pending.cin = r.map (fun l => (l, (ws_callback sample_build
          .LWS_CALLBACK_CLIENT_WRITEABLE (capped 3) sample_pending).world.cin))) ∧
    (sample_pending.d.cur ≠ none →
      (ws_callback sample_build .LWS_CALLBACK_CLIENT_WRITEABLE (capped 3)
        sample_pending).world.reads = sample_pending.reads ∧
      (ws_callback sample_build .LWS_CALLBACK_CLIENT_WRITEABLE (capped 3)
        sample_pending).world.cin = sample_pending.cin) ∧
    (lines_read (ws_callback sample_build .LWS_CALLBACK_CLIENT_WRITEABLE (capped 3)
      sample_pending).world).length ≤ (lines_read sample_pending).length + 1 ∧
    (∀ a, (ws_callback sample_build .LWS_CALLBACK_CLIENT_WRITEABLE (capped 3)
        sample_pending).world.writes = sample_pending.writes ++ [a] →
      (ws_callback sample_build .LWS_CALLBACK_CLIENT_WRITEABLE (capped 3)
        sample_pending).world.d.cur = none →
      (a.len : Int) ≤ a.sent ∧ a.data.length = a.len) ∧
    (sample_pending.d.cur = none → transmitted sample_pending = framed (lines_read sample_pending)) :=
  ⟨by decide, C4_single_in_flight sample_build "localhost" 8080 "/chat" (bytes "hello\n")
    [writable (capped 3)] sample_pending (capped 3) (by decide)⟩

/-- C5. Write failure is fatal, and only write failure: a writable step throws
exactly when it makes a write call whose answer is negative; with any other
answer, and when it makes no write call, it returns `0`.  A writable step
makes at most one write call. -/
theorem C5_write_failure_only (b : Build) (f : Nat → Int) (w : World) :
    ((∃ what w', ws_callback b .LWS_CALLBACK_CLIENT_WRITEABLE f w = .thrown what w') ↔
      (∃ a, (ws_callback b .LWS_CALLBACK_CLIENT_WRITEABLE f w).world.writes = w.writes ++ [a] ∧
        a.sent < 0)) ∧
    (∀ a, (ws_callback b .LWS_CALLBACK_CLIENT_WRITEABLE f w).world.writes = w.writes ++ [a] →
      0 ≤ a.sent →
      ws_callback b .LWS_CALLBACK_CLIENT_WRITEABLE f w =
        .returned 0 (ws_callback b .LWS_CALLBACK_CLIENT_WRITEABLE f w).world) ∧
    ((ws_callback b .LWS_CALLBACK_CLIENT_WRITEABLE f w).world.writes = w.writes →
      ws_callback b .LWS_CALLBACK_CLIENT_WRITEABLE f w =
        .returned 0 (ws_callback b .LWS_CALLBACK_CLIENT_WRITEABLE f w).world) ∧
    ((ws_callback b .LWS_CALLBACK_CLIENT_WRITEABLE f w).world.writes = w.writes ∨
      ∃ a, (ws_callback b .LWS_CALLBACK_CLIENT_WRITEABLE f w).world.writes = w.writes ++ [a] ∧
        a.sent = f a.len) := by
  have hws : ws_callback b .LWS_CALLBACK_CLIENT_WRITEABLE f w = client_writeable b f w := rfl
  rw [hws]
  have key : ∀ (c : Nat) (v : World), v.writes = w.writes →
      client_writeable b f w = send_buffer b f c v →
      ((∃ what w', client_writeable b f w = .thrown what w') ↔
        (∃ a, (client_writeable b f w).world.writes = w.writes ++ [a] ∧ a.sent < 0)) ∧
      (∀ a, (client_writeable b f w).world.writes = w.writes ++ [a] → 0 ≤ a.sent →
        client_writeable b f w = .returned 0 (client_writeable b f w).world) ∧
      ((client_writeable b f w).world.writes = w.writes →
        client_writeable b f w = .returned 0 (client_writeable b f w).world) ∧
      ((client_writeable b f w).world.writes = w.writes ∨
        ∃ a, (client_writeable b f w).world.writes = w.writes ++ [a] ∧ a.sent = f a.len) := by
    intro c v hv he
    obtain ⟨a, _, hsent, hw, _, _, _, _, hneg, hpos⟩ := send_buffer_any b f c v
    rw [← he, hv] at hw
    rw [← he] at hneg hpos
    have huniq : ∀ a', (client_writeable b f w).world.writes = w.writes ++ [a'] → a' = a := by
      intro a' ha'
      rw [hw] at ha'
      have := List.append_cancel_left ha'
      simpa using this.symm
    refine ⟨⟨?_, ?_⟩, ?_, ?_, Or.inr ⟨a, hw, hsent⟩⟩
    · rintro ⟨what, w', hthrow⟩
      refine ⟨a, hw, ?_⟩
      by_contra hge
      have := (hpos (by omega)).1
      rw [hthrow] at this
      exact Outcome.noConfusion this
    · rintro ⟨a', ha', hlt⟩
      rw [huniq a' ha'] at hlt
      obtain ⟨what, hwhat⟩ := (hneg hlt).1
      exact ⟨what, _, hwhat⟩
    · intro a' ha' h0
      rw [huniq a' ha'] at h0
      exact (hpos h0).1
    · intro hsame
      rw [hw] at hsame
      have : [a] = [] := List.append_cancel_left (hsame.trans (List.append_nil _).symm)
      exact absurd this (by simp)
  rcases writeable_cases b f w with ⟨c, _, he⟩ | ⟨_, _, he⟩ | ⟨line0, rest, _, _, he⟩
  · exact key c w rfl he
  · rw [he]
    refine ⟨⟨?_, ?_⟩, fun _ _ _ => rfl, fun _ => rfl, Or.inl rfl⟩
    · rintro ⟨what, w', h⟩
      exact Outcome.noConfusion h
    · rintro ⟨a, ha, _⟩
      have : [a] = [] := (List.append_cancel_left (ha.symm.trans (List.append_nil _).symm))
      exact absurd this (by simp)
  · exact key _ (fetched b w line0 rest) rfl he

/-- The diagnostic of `sample_build` for a failed handshake with
`localhost`, port `8080`, path `/chat`: it ends in `localhost:8080/chat` and
does not contain `localhost:8080:/chat`. -/
theorem C6_counterexample :
    ws_callback sample_build .LWS_CALLBACK_CLIENT_CONNECTION_ERROR (capped 3) sample_idle =
      .thrown "wspipe.cpp:52: Failed to connect to websocket at localhost:8080/chat"
        sample_idle ∧
    ¬ List.IsInfix ("localhost" ++ ":" ++ toString 8080 ++ ":" ++ "/chat").data
      "wspipe.cpp:52: Failed to connect to websocket at localhost:8080/chat".data := by
  decide

/-- C6, amended. Handshake-failure diagnostic: handling a connection-error
event throws, the message ends in the destination rendered as
`host ++ ":" ++ decimal(port) ++ path` (host and port are separated by a
colon, port and path by nothing), and the handler makes no write call: it
leaves the world as it found it. -/
theorem C6_connection_error_diagnostic (b : Build) (f : Nat → Int) (w : World) :
    ∃ what, ws_callback b .LWS_CALLBACK_CLIENT_CONNECTION_ERROR f w = .thrown what w ∧
      List.IsSuffix (w.d.host ++ ":" ++ toString w.d.port ++ w.d.path).data what.data ∧
      List.IsInfix (w.d.host ++ ":" ++ toString w.d.port ++ w.d.path).data what.data := by
  refine ⟨_, rfl, ?_⟩
  have hs : List.IsSuffix (w.d.host ++ ":" ++ toString w.d.port ++ w.d.path).data
      (THROW_RUNTIME b.FILE b.LINE_connect
        ("Failed to connect to websocket at " ++ destination w.d)).data := by
    unfold THROW_RUNTIME destination
    refine ⟨(b.FILE ++ ":" ++ toString b.LINE_connect ++ ": " ++
      "Failed to connect to websocket at ").data, ?_⟩
    simp only [String.data_append, List.append_assoc]
  exact ⟨hs, hs.isInfix⟩

/-- C7. The closed flag is monotonic: when a handler invocation returns, the
flag is set afterwards exactly when it was set before, or the event is
`LWS_CALLBACK_CLOSED`, or it is a writable event that finds no pending message
and standard input at its end.  So the flag is never cleared, and no other
event sets it. -/
theorem C7_closed_monotonic (b : Build) (reason : Reason) (f : Nat → Int) (w : World)
    (r : Int) (w' : World) (h : ws_callback b reason f w = .returned r w') :
    (w.d.was_closed = true → w'.d.was_closed = true) ∧
    (w'.d.was_closed = true ↔
      (w.d.was_closed = true ∨ reason = .LWS_CALLBACK_CLOSED ∨
        (reason = .LWS_CALLBACK_CLIENT_WRITEABLE ∧ w.d.cur = none ∧ w.cin = []))) := by
  have main : w'.d.was_closed = true ↔
      (w.d.was_closed = true ∨ reason = .LWS_CALLBACK_CLOSED ∨
        (reason = .LWS_CALLBACK_CLIENT_WRITEABLE ∧ w.d.cur = none ∧ w.cin = [])) := by
    cases reason with
    | LWS_CALLBACK_CLIENT_ESTABLISHED =>
      injection h with _ hw
      subst hw
      simp
    | LWS_CALLBACK_CLIENT_CONNECTION_ERROR => exact Outcome.noConfusion h
    | LWS_CALLBACK_CLOSED =>
      injection h with _ hw
      subst hw
      simp
    | OTHER code =>
      injection h with _ hw
      subst hw
      simp
    | LWS_CALLBACK_CLIENT_WRITEABLE =>
      have hws : ws_callback b .LWS_CALLBACK_CLIENT_WRITEABLE f w = client_writeable b f w := rfl
      rw [hws] at h
      have key : ∀ (c : Nat) (v : World), v.d.was_closed = w.d.was_closed →
          client_writeable b f w = send_buffer b f c v →
          w'.d.was_closed = w.d.was_closed := by
        intro c v hv he
        obtain ⟨a, _, _, _, _, _, _, hcl, _, _⟩ := send_buffer_any b f c v
        rw [← he, h] at hcl
        exact hcl.trans hv
      rcases writeable_cases b f w with ⟨c, hc, he⟩ | ⟨hc, hcin, he⟩ | ⟨line0, rest, hc, hg, he⟩
      · rw [key c w rfl he]
        simp [hc]
      · rw [he] at h
        injection h with _ hw
        subst hw
        simp [hc, hcin]
      · rw [key _ (fetched b w line0 rest) rfl he]
        have hne : w.cin ≠ [] := by
          intro e
          rw [e] at hg
          exact Option.noConfusion hg
        simp [hne]
  exact ⟨fun hb => main.2 (Or.inl hb), main⟩

/-- C7 at the writable step that closes the session on the empty input. -/
theorem C7_closed_monotonic_witness :
    ws_callback sample_build .LWS_CALLBACK_CLIENT_WRITEABLE (capped 3) sample_idle =
      .returned 0 sample_drained ∧
    (sample_idle.d.was_closed = true → sample_drained.d.was_closed = true) ∧
    (sample_drained.d.was_closed = true ↔
      (sample_idle.d.was_closed = true ∨
        Reason.LWS_CALLBACK_CLIENT_WRITEABLE = .LWS_CALLBACK_CLOSED ∨
        (Reason.LWS_CALLBACK_CLIENT_WRITEABLE = .LWS_CALLBACK_CLIENT_WRITEABLE ∧
          sample_idle.d.cur = none ∧ sample_idle.cin = []))) :=
  ⟨rfl, C7_closed_monotonic sample_build .LWS_CALLBACK_CLIENT_WRITEABLE (capped 3)
    sample_idle 0 sample_drained rfl⟩

/-- C8. Chunked sending over a capped transport: let `k ≥ 1`, let standard
input hold the lines `ls`, each followed by a newline, and let every write be
answered with `min(k, bytes requested)`.  The message of a line of `m` bytes
has `⌈(m + 1) / k⌉` chunks, of `k` bytes each but for the last, which has
between one and `k`, and concatenated they are the line and its newline.  For every `j` up to the total number `N` of chunks, `j`
writable events make `j` write calls, whose accepted byte ranges are the first
`j` chunks in order, and leave `was_closed` unset; `N + 1` writable events
make the same `N` write calls, accepting all the chunks, and leave
`was_closed` set. -/
theorem C8_chunked_sending (k : Nat) (hk : 1 ≤ k) (b : Build) (host : String) (port : Nat)
    (path : String) (ls : List (List UInt8)) (hls : ∀ l ∈ ls, (10 : UInt8) ∉ l) :
    (∀ l : List UInt8, (chunks k (l ++ [10])).length = (l.length + 1 + (k - 1)) / k ∧
      (chunks k (l ++ [10])).flatten = l ++ [10] ∧
      (∀ c ∈ chunks k (l ++ [10]), 1 ≤ c.length ∧ c.length ≤ k) ∧
      ∀ c ∈ (chunks k (l ++ [10])).dropLast, c.length = k) ∧
    (∀ j, j ≤ (chunk_plan k ls).length →
      ∃ w, run b (List.replicate j (writable (capped k)))
          (start host port path (framed ls)) = some w ∧
        w.writes.map accepted = (chunk_plan k ls).take j ∧ w.writes.length = j ∧
        w.d.was_closed = false) ∧
    (∃ w, run b (List.replicate ((chunk_plan k ls).length + 1) (writable (capped k)))
        (start host port path (framed ls)) = some w ∧
      w.writes.map accepted = chunk_plan k ls ∧ w.writes.length = (chunk_plan k ls).length ∧
      w.d.was_closed = true) := by
  have hstart : chunks_left k b (start host port path (framed ls)) ls = chunk_plan k ls := by
    simp [chunks_left, unsent, start, chunks_nil]
  have hpart : ∀ j, j ≤ (chunk_plan k ls).length →
      ∃ w rs', run b (List.replicate j (writable (capped k)))
          (start host port path (framed ls)) = some w ∧ Inv b w ∧ w.cin = framed rs' ∧
        w.writes.map accepted = (chunk_plan k ls).take j ∧ w.writes.length = j ∧
        w.d.was_closed = false ∧ chunks_left k b w rs' = (chunk_plan k ls).drop j := by
    intro j hj
    obtain ⟨w, rs', hrun, hinv, hcin, hmap, hlen, hcl, hleft⟩ :=
      run_capped k hk b j (start host port path (framed ls)) ls
        (inv_start b host port path (framed ls)) rfl hls rfl (by rw [hstart]; exact hj)
    rw [hstart] at hmap hleft
    exact ⟨w, rs', hrun, hinv, hcin, by simpa [start] using hmap, by simpa [start] using hlen,
      hcl, hleft⟩
  refine ⟨?_, ?_, ?_⟩
  · intro l
    obtain ⟨h1, h2⟩ := flatten_chunks k hk (l ++ [10])
    refine ⟨?_, h1, h2, length_chunks_dropLast k hk (l ++ [10])⟩
    rw [length_chunks k hk, List.length_append, List.length_singleton]
  · intro j hj
    obtain ⟨w, _, hrun, _, _, hmap, hlen, hcl, _⟩ := hpart j hj
    exact ⟨w, hrun, hmap, hlen, hcl⟩
  · obtain ⟨w, rs', hrun, hinv, hcin, hmap, hlen, _, hleft⟩ := hpart _ (le_refl _)
    rw [List.drop_length] at hleft
    rw [List.take_length] at hmap
    obtain ⟨w', hstep, hcl', hwr'⟩ := capped_close k hk b (capped k) w rs' hinv hcin hleft
    refine ⟨w', ?_, by rw [hwr', hmap], by rw [hwr', hlen], hcl'⟩
    rw [List.replicate_succ', run_append b _ _ _ w hrun]
    exact run_writable_cons b (capped k) [] w w' hstep

/-- C8 on the input `hello\nworld\n` with `k = 3`: the accepted chunks are
`hel`, `lo\n`, `wor`, `ld\n`, and the fifth step closes the session. -/
theorem C8_chunked_sending_witness :
    1 ≤ 3 ∧ (∀ l ∈ [bytes "hello", bytes "world"], (10 : UInt8) ∉ l) ∧
    framed [bytes "hello", bytes "world"] = bytes "hello\nworld\n" ∧
    chunk_plan 3 [bytes "hello", bytes "world"] =
      [bytes "hel", bytes "lo\n", bytes "wor", bytes "ld\n"] ∧
    (∃ w, run sample_build (List.replicate 4 (writable (capped 3)))
        (start "localhost" 8080 "/chat" (bytes "hello\nworld\n")) = some w ∧
      w.writes.map accepted = [bytes "hel", bytes "lo\n", bytes "wor", bytes "ld\n"] ∧
      w.writes.length = 4 ∧ w.d.was_closed = false) ∧
    (∃ w, run sample_build (List.replicate 5 (writable (capped 3)))
        (start "localhost" 8080 "/chat" (bytes "hello\nworld\n")) = some w ∧
      w.writes.map accepted = [bytes "hel", bytes "lo\n", bytes "wor", bytes "ld\n"] ∧
      w.writes.length = 4 ∧ w.d.was_closed = true) :=
  ⟨by decide, by decide, by decide, by decide,
    (C8_chunked_sending 3 (by decide) sample_build "localhost" 8080 "/chat"
      [bytes "hello", bytes "world"] (by decide)).2.1 4 (by decide),
    (C8_chunked_sending 3 (by decide) sample_build "localhost" 8080 "/chat"
      [bytes "hello", bytes "world"] (by decide)).2.2⟩

/-- C9. At most one outstanding writable request.  An invocation that returns
makes at most one `libwebsocket_callback_on_writable` call: exactly one on an
established event and on a writable event that makes a write call, none on a
writable event at the end of the input, on a closed event and on any other
event.  Hence, with the outstanding requests counted as in `dispatch`, from
zero requests and one established event the counter is at most one after any
further events that are not established events. -/
theorem C9_one_outstanding_request (b : Build) :
    (∀ (reason : Reason) (f : Nat → Int) (w w' : World) (r : Int),
      ws_callback b reason f w = .returned r w' →
      (reason = .LWS_CALLBACK_CLIENT_ESTABLISHED → w'.on_writable = w.on_writable + 1) ∧
      (reason = .LWS_CALLBACK_CLIENT_WRITEABLE → (∃ a, w'.writes = w.writes ++ [a]) →
        w'.on_writable = w.on_writable + 1) ∧
      (reason = .LWS_CALLBACK_CLIENT_WRITEABLE → w.d.cur = none → w.cin = [] →
        w'.on_writable = w.on_writable ∧ w'.writes = w.writes) ∧
      (reason = .LWS_CALLBACK_CLOSED → w'.on_writable = w.on_writable) ∧
      (∀ code, reason = .OTHER code → w'.on_writable = w.on_writable) ∧
      w.on_writable ≤ w'.on_writable ∧ w'.on_writable ≤ w.on_writable + 1) ∧
    (∀ (f : Nat → Int) (evs : List Event) (w0 : World) (s : Nat × World),
      (∀ e ∈ evs, e.reason ≠ .LWS_CALLBACK_CLIENT_ESTABLISHED) →
      serve b ({ reason := .LWS_CALLBACK_CLIENT_ESTABLISHED, write := f } :: evs) (0, w0) =
        some s →
      s.1 ≤ 1) := by
  refine ⟨fun reason f w w' r h => requests_of_callback b reason f w r w' h, ?_⟩
  intro f evs w0 s hev h
  simp only [serve] at h
  cases hd : dispatch b { reason := .LWS_CALLBACK_CLIENT_ESTABLISHED, write := f } (0, w0) with
  | none =>
    rw [hd] at h
    exact Option.noConfusion h
  | some s1 =>
    rw [hd] at h
    refine serve_le_one b evs hev s1 s ?_ h
    simp [dispatch, ws_callback] at hd
    rw [← hd]

/-- A session of `sample_build`: the connection is established and the two
lines are pumped three bytes at a time; one request is outstanding before the
step that closes, none after it. -/
theorem C9_sample_session :
    (serve sample_build
      ({ reason := .LWS_CALLBACK_CLIENT_ESTABLISHED, write := capped 3 } ::
        List.replicate 4 (writable (capped 3)))
      (0, start "localhost" 8080 "/chat" (bytes "hello\nworld\n"))).map Prod.fst = some 1 ∧
    (serve sample_build
      ({ reason := .LWS_CALLBACK_CLIENT_ESTABLISHED, write := capped 3 } ::
        List.replicate 5 (writable (capped 3)))
      (0, start "localhost" 8080 "/chat" (bytes "hello\nworld\n"))).map Prod.fst = some 0 := by
  decide

/-- C10. Cursor bounds invariant: in every state a session reaches from the
initial state by events whose handlers return (so every write was answered
with a non-negative result), a pending cursor `c` belongs to a buffer of
length `PRE + (line length + 1) + POST` for the line read last and satisfies
`PRE ≤ c < buffer length - POST`; the signed difference
`buffer end - cursor - POST` is between `1` and `line length + 1`, so its
conversion to `size_t` does not wrap.  Every write call made so far started at
or after `PRE`, asked for between `1` and `line length + 1` bytes of some line
read, ended at the end of that line's message and stayed inside the buffer. -/
theorem C10_cursor_bounds (b : Build) (host : String) (port : Nat) (path : String)
    (cin : List UInt8) (evs : List Event) (w : World)
    (h : run b evs (start host port path cin) = some w) :
    (∀ c, w.d.cur = some c → ∃ line, w.reads.getLast? = some (some line) ∧
      w.d.buf.length =
        b.LWS_SEND_BUFFER_PRE_PADDING + (line.length + 1) + b.LWS_SEND_BUFFER_POST_PADDING ∧
      b.LWS_SEND_BUFFER_PRE_PADDING ≤ c ∧
      c < w.d.buf.length - b.LWS_SEND_BUFFER_POST_PADDING ∧
      1 ≤ (w.d.buf.length : Int) - (c : Int) - (b.LWS_SEND_BUFFER_POST_PADDING : Int) ∧
      (w.d.buf.length : Int) - (c : Int) - (b.LWS_SEND_BUFFER_POST_PADDING : Int) ≤
        (line.length : Int) + 1 ∧
      ((to_size_t ((w.d.buf.length : Int) - (c : Int) -
          (b.LWS_SEND_BUFFER_POST_PADDING : Int)) : Nat) : Int) =
        (w.d.buf.length : Int) - (c : Int) - (b.LWS_SEND_BUFFER_POST_PADDING : Int)) ∧
    (∀ a ∈ w.writes, ∃ line ∈ lines_read w,
      b.LWS_SEND_BUFFER_PRE_PADDING ≤ a.off ∧ 1 ≤ a.len ∧ a.len ≤ line.length + 1 ∧
      a.off + a.len = b.LWS_SEND_BUFFER_PRE_PADDING + (line.length + 1) ∧
      a.data.length = a.len) := by
  obtain ⟨hp, _, hwr⟩ := inv_run b evs _ w (inv_start b host port path cin) h
  refine ⟨?_, ?_⟩
  · intro c hc
    obtain ⟨line, hlast, hlen, hpre, hlt⟩ := hp c hc
    refine ⟨line, hlast, hlen, hpre, hlt, by omega, by omega, ?_⟩
    rw [to_size_t_diff _ _ _ (by omega)]
    omega
  · intro a ha
    obtain ⟨h1, h2, h3, line, hl, h4⟩ := hwr a ha
    exact ⟨line, hl, h1, h2, by omega, h4, h3⟩

/-- C10 in the state reached on the input `hello\n` by one write of 3
accepted bytes. -/
theorem C10_cursor_bounds_witness :
    run sample_build [writable (capped 3)] (start "localhost" 8080 "/chat" (bytes "hello\n")) =
      some sample_pending ∧
    (∀ c, sample_pending.d.cur = some c → ∃ line,
      sample_pending.reads.getLast? = some (some line) ∧
      sample_pending.d.buf.length = 18 + (line.length + 1) + 4 ∧
      18 ≤ c ∧ c < sample_pending.d.buf.length - 4 ∧
      1 ≤ (sample_pending.d.buf.length : Int) - (c : Int) - ((4 : Nat) : Int) ∧
      (sample_pending.d.buf.length : Int) - (c : Int) - ((4 : Nat) : Int) ≤
        (line.length : Int) + 1 ∧
      ((to_size_t ((sample_pending.d.buf.length : Int) - (c : Int) - ((4 : Nat) : Int)) : Nat) :
          Int) =
        (sample_pending.d.buf.length : Int) - (c : Int) - ((4 : Nat) : Int)) ∧
    (∀ a ∈ sample_pending.writes, ∃ line ∈ lines_read sample_pending,
      18 ≤ a.off ∧ 1 ≤ a.len ∧ a.len ≤ line.length + 1 ∧
      a.off + a.len = 18 + (line.length + 1) ∧ a.data.length = a.len) :=
  ⟨by decide, C10_cursor_bounds sample_build "localhost" 8080 "/chat" (bytes "hello\n")
    [writable (capped 3)] sample_pending (by decide)⟩

end Wspipe
